import Mathlib

/-!
# Lumerical command data: extraction and merge

A shallow embedding of `scripts/generate-commands.js` (the documentation scanner
`parseMarkdown` and the record merger `mergeCommandData`), of the loader
`src/command-loader.js` and of `HoverProvider.createMarkdownContent` in
`src/hover-provider.js`, together with the theorems that settle the specification's
statements about them.

## Modelling conventions

* A JavaScript string is a list of UTF-16 code units.  A `Char` stands for one code unit,
  so the strings covered are those of the Basic Multilingual Plane.
* The built-in string methods used by the script (`split`, `trim`, `startsWith`,
  `includes`, `indexOf`, `substring`, `toLowerCase`, `join`, the two `replace` calls) are
  defined first, each by structural recursion, so that every definition evaluates.
* The line cursor `i` of `parseMarkdown` is carried as the list of lines not yet consumed,
  that is `lines.slice(i)`: `i < lines.length` reads "the cursor is non-empty" and
  `lines[i]` is its head.  `parseMarkdownLoops` is the same function with the index `i`
  and every loop limited to a number of iterations; `parseMarkdownLoops_eq` shows that
  the loops end and that the two agree.
* The object `markdownDocs` is a plain object, read as the language reads a property: the
  own property first, then the prototype chain.  `mergeCommandData` takes the read
  `markdownDocs[key]` as a function of the key; `parseAllMarkdownFiles` builds the object
  from `{}` by assignments.
* The loader is a state (`commandMap`, `loaded`) passed through its methods; the two data
  files are a parameter, each missing, unreadable or holding a list of command objects.
  A JavaScript `Map` is the list of its entries in insertion order.
-/

namespace Lumerical

/-- A JavaScript string: the list of its code units. -/
abbrev Str := List Char

/-! ## Built-in string methods -/

/-- The code units removed by `String.prototype.trim` and matched by the regular
expression class `\s`: ECMAScript WhiteSpace and LineTerminator. -/
def isWhiteSpace (c : Char) : Bool :=
  let n := c.toNat
  n == 0x09 || n == 0x0A || n == 0x0B || n == 0x0C || n == 0x0D || n == 0x20 ||
  n == 0xA0 || n == 0x1680 || (0x2000 ≤ n && n ≤ 0x200A) || n == 0x2028 || n == 0x2029 ||
  n == 0x202F || n == 0x205F || n == 0x3000 || n == 0xFEFF

/-- Leading white space removed (`trimStart`). -/
def trimStart (s : Str) : Str := s.dropWhile isWhiteSpace

/-- Trailing white space removed (`trimEnd`). -/
def trimEnd (s : Str) : Str := (s.reverse.dropWhile isWhiteSpace).reverse

/-- The method `s.trim()`. -/
def trim (s : Str) : Str := trimEnd (trimStart s)

/-- The method `s.startsWith(p)`. -/
def startsWith (s p : Str) : Bool := p.isPrefixOf s

/-- The method `s.indexOf(p)` with the position counted from `k`: the first position at
which `p` occurs, `-1` when it occurs nowhere. -/
def indexOfFrom (p : Str) : Str → Nat → Int
  | [], k => if startsWith [] p then (k : Int) else -1
  | c :: cs, k => if startsWith (c :: cs) p then (k : Int) else indexOfFrom p cs (k + 1)

/-- The method `s.indexOf(p)`. -/
def indexOf (s p : Str) : Int := indexOfFrom p s 0

/-- The method `s.includes(p)`. -/
def includes (s p : Str) : Bool := decide (indexOf s p ≠ -1)

/-- The method `s.substring(0, n)`; a negative end counts as `0` and an end past the
length as the length. -/
def substring0 (s : Str) (n : Int) : Str := s.take n.toNat

/-- The pieces of `s.split(sep)` for a one-unit separator: the piece being read and the
pieces after it. -/
def splitAux (sep : Char) : Str → Str × List Str
  | [] => ([], [])
  | c :: cs =>
    let r := splitAux sep cs
    if c = sep then ([], r.1 :: r.2) else (c :: r.1, r.2)

/-- The method `s.split(sep)` for a one-unit separator; the result is never empty. -/
def split (sep : Char) (s : Str) : List Str :=
  let r := splitAux sep s
  r.1 :: r.2

/-- The method `parts.join(sep)`. -/
def join (sep : Str) (parts : List Str) : Str := List.intercalate sep parts

/-- The lower-case form of one code unit.  ASCII capitals map to their small letters;
U+0130 maps to the two units `i` U+0307 and U+212A to `k`, the only units outside ASCII
whose lower-case form contains an ASCII letter.  Every other unit is kept: its lower-case
form is one unit outside ASCII, so keeping it never changes where an ASCII pattern
occurs. -/
def toLowerCaseUnit (c : Char) : Str :=
  if 'A'.toNat ≤ c.toNat ∧ c.toNat ≤ 'Z'.toNat then [Char.ofNat (c.toNat + 32)]
  else if c.toNat = 0x130 then ['i', Char.ofNat 0x307]
  else if c.toNat = 0x212A then ['k']
  else [c]

/-- The method `s.toLowerCase()`. -/
def toLowerCase : Str → Str
  | [] => []
  | c :: cs => toLowerCaseUnit c ++ toLowerCase cs

/-- The call `s.replace(/^#+\s*/, '')`: a leading run of `#` and the white space that
follows it are removed; a string not starting with `#` is returned as it is. -/
def replaceHeadingMarker (s : Str) : Str :=
  if startsWith s ['#'] then (s.dropWhile (fun c => c == '#')).dropWhile isWhiteSpace else s

/-- The call `s.replace(/\*\*/g, '')`: every `**`, found left to right without overlap,
is removed. -/
def replaceBold : Str → Str
  | [] => []
  | [c] => [c]
  | c :: d :: cs =>
    if c = '*' ∧ d = '*' then replaceBold cs else c :: replaceBold (d :: cs)

/-! ## Data model -/

/-- One row of a syntax table: the fields `syntax` and `description` of the script's row
objects. -/
structure SyntaxRow where
  syntaxText : Str
  description : Str
deriving DecidableEq, Repr

/-- The object returned by `parseMarkdown`; `syntaxRows` is its field `syntax` and
`exampleText` its field `example`. -/
structure ParsedDoc where
  title : Str
  description : Str
  syntaxRows : List SyntaxRow
  exampleText : Str
  markdown : Str
  summary : Str
deriving DecidableEq, Repr

/-- An entry of `commands.json`: `name`, `description` and `usage` are strings, `category`
may be absent, and `other` lists every further field of the entry with its value. -/
structure BaselineRecord where
  name : Str
  description : Str
  usage : Str
  category : Option Str
  other : List (Str × Str)
deriving DecidableEq, Repr

/-- An entry of the enhanced command data: the baseline fields and the four fields set by
`mergeCommandData`; `syntaxRows` is its field `syntax` and `exampleText` its field
`example`.  Each of the four is `none` when the value assigned to it is `undefined`. -/
structure MergedRecord where
  name : Str
  description : Str
  usage : Str
  category : Option Str
  other : List (Str × Str)
  markdown : Option Str
  summary : Option Str
  syntaxRows : Option (List SyntaxRow)
  exampleText : Option Str
deriving DecidableEq, Repr

/-- A value that reading a property of the object `markdownDocs` can give: `undefined`, an
object returned by `parseMarkdown`, a string, an array of syntax rows, or a function or
object that the language provides (a member of `Object.prototype`, or `Object.prototype`
itself). -/
inductive DocValue where
  | undefined
  | document (doc : ParsedDoc)
  | text (s : Str)
  | rows (l : List SyntaxRow)
  | builtin
deriving DecidableEq, Repr

/-- The test `if (doc)`: `undefined` and the empty string are falsy; an object, an array, a
function and a non-empty string are truthy. -/
def DocValue.truthy : DocValue → Bool
  | .undefined => false
  | .document _ => true
  | .text s => !s.isEmpty
  | .rows _ => true
  | .builtin => true

/-- The read `doc.description`: only an object returned by `parseMarkdown` has the
property; on a string, an array or a function the read gives `undefined`. -/
def DocValue.description : DocValue → Option Str
  | .document doc => some doc.description
  | _ => none

/-- The read `doc.markdown`. -/
def DocValue.markdown : DocValue → Option Str
  | .document doc => some doc.markdown
  | _ => none

/-- The read `doc.summary`. -/
def DocValue.summary : DocValue → Option Str
  | .document doc => some doc.summary
  | _ => none

/-- The read `doc.syntax`. -/
def DocValue.syntaxRows : DocValue → Option (List SyntaxRow)
  | .document doc => some doc.syntaxRows
  | _ => none

/-- The read `doc.example`. -/
def DocValue.exampleText : DocValue → Option Str
  | .document doc => some doc.exampleText
  | _ => none

/-- The object `markdownDocs` as `mergeCommandData` reads it: the value of
`markdownDocs[key]` for every key. -/
abbrev DocMap := Str → DocValue

/-- The names of the data properties that a plain object inherits from `Object.prototype`:
each holds a function.  (The accessor `__proto__` is treated apart.) -/
def objectPrototypeKeys : List Str :=
  ["constructor", "__defineGetter__", "__defineSetter__", "hasOwnProperty",
   "__lookupGetter__", "__lookupSetter__", "isPrototypeOf", "propertyIsEnumerable",
   "toString", "valueOf", "toLocaleString"].map String.toList

/-- The read of the property `key` on `Object.prototype`. -/
def objectPrototypeGet (key : Str) : DocValue :=
  if key ∈ objectPrototypeKeys then .builtin else .undefined

/-- The own property `key` of an object returned by `parseMarkdown`: one of its six fields,
`none` when the object has no own property of that name. -/
def ParsedDoc.getOwn (doc : ParsedDoc) (key : Str) : Option DocValue :=
  if key = "title".toList then some (.text doc.title)
  else if key = "description".toList then some (.text doc.description)
  else if key = "syntax".toList then some (.rows doc.syntaxRows)
  else if key = "example".toList then some (.text doc.exampleText)
  else if key = "markdown".toList then some (.text doc.markdown)
  else if key = "summary".toList then some (.text doc.summary)
  else none

/-- The plain object `commandDocs`.  `own` gives its own properties, each holding a parsed
document.  `proto` is its prototype: `none` while that is `Object.prototype`, as for `{}`,
and `some doc` once an assignment to the key `__proto__` has made the parsed document `doc`
the prototype. -/
structure DocObject where
  own : Str → Option ParsedDoc
  proto : Option ParsedDoc

/-- The object literal `{}`: no own property, prototype `Object.prototype`. -/
def DocObject.empty : DocObject := { own := fun _ => none, proto := none }

/-- The assignment `commandDocs[key] = doc`.  The key `__proto__` is the accessor of
`Object.prototype`, whose setter makes the object `doc` the prototype and creates no own
property; every other key becomes (or stays) an own property holding `doc`, also when a
property of that name is inherited. -/
def DocObject.set (o : DocObject) (key : Str) (doc : ParsedDoc) : DocObject :=
  if key = "__proto__".toList then { own := o.own, proto := some doc }
  else { own := fun k => if k = key then some doc else o.own k, proto := o.proto }

/-- The read `markdownDocs[key]` on a plain object: for `__proto__` the prototype; else the
own property if there is one; else the property inherited from the prototype chain (the
parsed document made the prototype, if any, then `Object.prototype`); else `undefined`. -/
def DocObject.get (o : DocObject) (key : Str) : DocValue :=
  if key = "__proto__".toList then
    match o.proto with
    | some doc => .document doc
    | none => .builtin
  else
    match o.own key with
    | some doc => .document doc
    | none =>
      match o.proto with
      | some doc =>
        match doc.getOwn key with
        | some v => v
        | none => objectPrototypeGet key
      | none => objectPrototypeGet key

/-! ## `parseMarkdown` -/

/-- The title scan (source lines 52-59): the cursor moves to the first line whose trimmed
form starts with `#`; that line gives the title and is consumed. -/
def scanTitle (lines : List Str) : Str × List Str :=
  let cur := lines.dropWhile (fun l => !startsWith (trim l) "#".toList)
  match cur with
  | [] => ([], cur)
  | l :: rest =>
    if startsWith (trim l) "#".toList then (replaceHeadingMarker (trim l), rest) else ([], cur)

/-- The loop skipping empty lines (source lines 61-64, and again 125-128). -/
def skipEmptyLines (cur : List Str) : List Str :=
  cur.dropWhile (fun l => trim l == [])

/-- The test that ends the description (source line 70), on a trimmed line. -/
def isDescriptionEnd (line : Str) : Bool :=
  line == [] || startsWith line "|".toList || startsWith line "```".toList ||
    startsWith line "**Example**".toList

/-- The description scan (source lines 66-75): the trimmed lines collected and the cursor
left at the line that ended the scan. -/
def scanDescription (cur : List Str) : List Str × List Str :=
  ((cur.takeWhile (fun l => !isDescriptionEnd (trim l))).map trim,
    cur.dropWhile (fun l => !isDescriptionEnd (trim l)))

/-- The summary (source lines 78-84). -/
def makeSummary (description title : Str) : Str :=
  if description ≠ [] then
    let firstSentence := (split '.' description).headD []
    if firstSentence.length > 100 then substring0 firstSentence 100 ++ "...".toList
    else firstSentence
  else title

/-- The test `lines[i].trim().startsWith('|')`. -/
def isTableLine (l : Str) : Bool := startsWith (trim l) "|".toList

/-- The body of the loop over data rows (source lines 107-113): the row pushed for a
table line, if it has two non-empty cells. -/
def parseRow (row : Str) : Option SyntaxRow :=
  let cells := ((split '|' row).map trim).filter (fun cell => cell != [])
  match cells with
  | c0 :: c1 :: _ => some ⟨trim (replaceBold c0), trim (replaceBold c1)⟩
  | _ => none

/-- The syntax-table scan (source lines 86-116): the cursor moves to the first table line,
the run of table lines is consumed, and its lines after the first two give the rows. -/
def scanTable (cur : List Str) : List SyntaxRow × List Str :=
  let cur := cur.dropWhile (fun l => !isTableLine l)
  match cur with
  | [] => ([], cur)
  | l :: _ =>
    if isTableLine l then
      let tableLines := cur.takeWhile isTableLine
      let cur := cur.dropWhile isTableLine
      if tableLines.length ≥ 2 then ((tableLines.drop 2).filterMap parseRow, cur) else ([], cur)
    else ([], cur)

/-- The test `lines[i].trim().startsWith('```')`. -/
def isFence (l : Str) : Bool := startsWith (trim l) "```".toList

/-- The test `lines[i].includes('**Example**')`. -/
def isExampleLabel (l : Str) : Bool := includes l "**Example**".toList

/-- The example scan (source lines 118-144): the value left in `result.example`. -/
def scanExample (cur : List Str) : Str :=
  let cur := cur.dropWhile (fun l => !isExampleLabel l)
  match cur with
  | [] => []
  | l :: rest =>
    if isExampleLabel l then
      let cur := skipEmptyLines rest
      let cur := cur.dropWhile (fun l => !isFence l)
      match cur with
      | [] => []
      | f :: rest =>
        if isFence f then
          let codeLines := rest.takeWhile (fun l => !isFence l)
          trim (join "\n".toList codeLines)
        else []
    else []

/-- The array `seeAlsoPatterns` (source lines 147-155). -/
def seeAlsoPatterns : List Str :=
  ["**See Also**".toList, "### See Also".toList, "**See also**".toList,
   "### See also".toList, "**See Also".toList, "### See Also".toList, "See Also".toList]

/-- The loop over the patterns (source lines 156-164): the value of `seeAlsoIndex` when
the loop ends, starting from `-1`. -/
def findSeeAlsoIndex (content : Str) : List Str → Int
  | [] => -1
  | pattern :: rest =>
    let index := indexOf (toLowerCase content) (toLowerCase pattern)
    if index ≠ -1 then index else findSeeAlsoIndex content rest

/-- The function `parseMarkdown(filePath, content)`.  The argument `filePath` is not read
by the function and is left out. -/
def parseMarkdown (content : Str) : ParsedDoc :=
  let lines := split '\n' content
  let t := scanTitle lines
  let d := scanDescription (skipEmptyLines t.2)
  let description := join " ".toList d.1
  let tb := scanTable d.2
  let seeAlsoIndex := findSeeAlsoIndex content seeAlsoPatterns
  { title := t.1
    description := description
    syntaxRows := tb.1
    exampleText := scanExample tb.2
    markdown := if seeAlsoIndex ≠ -1 then trim (substring0 content seeAlsoIndex) else content
    summary := makeSummary description t.1 }

/-- The object built by `parseAllMarkdownFiles` (source lines 179 and 190-201) from the
readable files, each given by its name without `.md` and its content: starting from `{}`,
the parsed document is assigned to the key that is the file's name. -/
def parseAllMarkdownFiles (files : List (Str × Str)) : DocObject :=
  files.foldl (fun commandDocs f => commandDocs.set f.1 (parseMarkdown f.2)) DocObject.empty

/-! ## `mergeCommandData` -/

/-- The placeholder `'Lumerical command: ' + cmd.name`. -/
def placeholder (name : Str) : Str := "Lumerical command: ".toList ++ name

/-- The body of the loop of `mergeCommandData` (source lines 239-261): the value of
`enhancedCmd` when it is pushed, `doc` being the value read from `markdownDocs[cmd.name]`.
It starts as the copy of `cmd` made by the spread.  When `doc` is truthy the four fields
are assigned whatever the reads `doc.markdown`, `doc.summary`, `doc.syntax` and
`doc.example` give, and the description is replaced when `doc.description` is a non-empty
string other than the placeholder. -/
def enhance (cmd : BaselineRecord) (doc : DocValue) : MergedRecord :=
  if doc.truthy then
    { name := cmd.name
      description :=
        match doc.description with
        | some description =>
          if description ≠ [] ∧ description ≠ placeholder cmd.name then description
          else cmd.description
        | none => cmd.description
      usage := cmd.usage
      category := cmd.category
      other := cmd.other
      markdown := doc.markdown
      summary := doc.summary
      syntaxRows := doc.syntaxRows
      exampleText := doc.exampleText }
  else
    { name := cmd.name
      description := cmd.description
      usage := cmd.usage
      category := cmd.category
      other := cmd.other
      markdown := some ("### ".toList ++ cmd.name ++ "\n\n".toList ++ cmd.description ++
        "\n\n**Usage:** `".toList ++ cmd.usage ++ "`".toList)
      summary := some cmd.description
      syntaxRows := some [⟨cmd.usage, cmd.description⟩]
      exampleText := some [] }

/-- The variables of `mergeCommandData` while its loop runs: the array passed in, the
array being built and the two counters. -/
structure MergeState where
  existingCommands : List BaselineRecord
  enhancedCommands : List MergedRecord
  enhancedCount : Nat
  missingDocsCount : Nat
deriving DecidableEq, Repr

/-- One iteration of the loop of `mergeCommandData` on the entry `cmd`. -/
def mergeStep (markdownDocs : DocMap) (st : MergeState) (cmd : BaselineRecord) : MergeState :=
  let doc := markdownDocs cmd.name
  { existingCommands := st.existingCommands
    enhancedCommands := st.enhancedCommands ++ [enhance cmd doc]
    enhancedCount := if doc.truthy then st.enhancedCount + 1 else st.enhancedCount
    missingDocsCount := if doc.truthy then st.missingDocsCount else st.missingDocsCount + 1 }

/-- The state of `mergeCommandData` when its loop has run over the whole array. -/
def mergeLoop (existingCommands : List BaselineRecord) (markdownDocs : DocMap) : MergeState :=
  existingCommands.foldl (mergeStep markdownDocs)
    { existingCommands := existingCommands, enhancedCommands := [], enhancedCount := 0,
      missingDocsCount := 0 }

/-- The function `mergeCommandData(existingCommands, markdownDocs)`: the array returned. -/
def mergeCommandData (existingCommands : List BaselineRecord) (markdownDocs : DocMap) :
    List MergedRecord :=
  (mergeLoop existingCommands markdownDocs).enhancedCommands

/-! ## The syntax table in the specification's words -/

/-- The lines from the one at which the description scan stopped: the cursor from which
`parseMarkdown` scans for the syntax table. -/
def cursorAfterDescription (content : Str) : List Str :=
  (scanDescription (skipEmptyLines (scanTitle (split '\n' content)).2)).2

/-- The cells of a table line, in the specification's words: the line split on `|`, each
piece trimmed, the empty pieces dropped. -/
def nonEmptyCells (line : Str) : List Str :=
  ((split '|' line).map trim).filter (fun cell => cell != [])

/-- The row of a table line, in the specification's words: a line with at least two
non-empty cells gives the row of its first and second cell, each with every `**` removed
and then trimmed; a line with fewer gives no row. -/
def rowOfLine (line : Str) : Option SyntaxRow :=
  if 2 ≤ (nonEmptyCells line).length then
    some { syntaxText := trim (replaceBold ((nonEmptyCells line).getD 0 []))
           description := trim (replaceBold ((nonEmptyCells line).getD 1 [])) }
  else none

/-! ## `parseMarkdown` with a line index -/

/-- A scanning loop of `parseMarkdown`, `while (i < lines.length && test(lines[i])) i++`,
whose body may push `lines[i]`, run for at most `fuel` iterations from the index `i` with
the lines pushed so far: the index and the pushed lines when the loop ends, or `none` when
an iteration is still due after `fuel` iterations. -/
def whileLoop (lines : List Str) (test : Str → Bool) : Nat → Nat → List Str →
    Option (Nat × List Str)
  | 0, i, pushed =>
    match lines[i]? with
    | some l => if test l then none else some (i, pushed)
    | none => some (i, pushed)
  | fuel + 1, i, pushed =>
    match lines[i]? with
    | some l => if test l then whileLoop lines test fuel (i + 1) (pushed ++ [l]) else some (i, pushed)
    | none => some (i, pushed)

/-- The title scan (source lines 50-59) with the index `i`, started at `0`. -/
def titleLoop (lines : List Str) (fuel : Nat) : Option (Str × Nat) :=
  match whileLoop lines (fun l => !startsWith (trim l) "#".toList) fuel 0 [] with
  | none => none
  | some (i, _) =>
    match lines[i]? with
    | some l =>
      if startsWith (trim l) "#".toList then some (replaceHeadingMarker (trim l), i + 1)
      else some ([], i)
    | none => some ([], i)

/-- The loop over empty lines and the description scan (source lines 61-75) with the
index `i`: the array `descriptionLines` and the index reached. -/
def descriptionLoop (lines : List Str) (fuel i : Nat) : Option (List Str × Nat) :=
  match whileLoop lines (fun l => trim l == []) fuel i [] with
  | none => none
  | some (i, _) =>
    match whileLoop lines (fun l => !isDescriptionEnd (trim l)) fuel i [] with
    | none => none
    | some (i, pushed) => some (pushed.map trim, i)

/-- The syntax-table scan (source lines 86-116) with the index `i`: the rows and the index
reached. -/
def tableLoop (lines : List Str) (fuel i : Nat) : Option (List SyntaxRow × Nat) :=
  match whileLoop lines (fun l => !isTableLine l) fuel i [] with
  | none => none
  | some (i, _) =>
    match lines[i]? with
    | some l =>
      if isTableLine l then
        match whileLoop lines isTableLine fuel i [] with
        | none => none
        | some (i, tableLines) =>
          if tableLines.length ≥ 2 then some ((tableLines.drop 2).filterMap parseRow, i)
          else some ([], i)
      else some ([], i)
    | none => some ([], i)

/-- The example scan (source lines 118-144) with the index `i`: the value left in
`result.example`. -/
def exampleLoop (lines : List Str) (fuel i : Nat) : Option Str :=
  match whileLoop lines (fun l => !isExampleLabel l) fuel i [] with
  | none => none
  | some (i, _) =>
    match lines[i]? with
    | some l =>
      if isExampleLabel l then
        match whileLoop lines (fun l => trim l == []) fuel (i + 1) [] with
        | none => none
        | some (i, _) =>
          match whileLoop lines (fun l => !isFence l) fuel i [] with
          | none => none
          | some (i, _) =>
            match lines[i]? with
            | some f =>
              if isFence f then
                match whileLoop lines (fun l => !isFence l) fuel (i + 1) [] with
                | none => none
                | some (_, codeLines) => some (trim (join "\n".toList codeLines))
              else some []
            | none => some []
      else some []
    | none => some []

/-- The function `parseMarkdown` with its line index `i` and every loop limited to `fuel`
iterations: the record returned, or `none` when some loop has not ended within `fuel`
iterations. -/
def parseMarkdownLoops (fuel : Nat) (content : Str) : Option ParsedDoc :=
  let lines := split '\n' content
  match titleLoop lines fuel with
  | none => none
  | some (title, i) =>
    match descriptionLoop lines fuel i with
    | none => none
    | some (descriptionLines, i) =>
      let description := join " ".toList descriptionLines
      match tableLoop lines fuel i with
      | none => none
      | some (rows, i) =>
        match exampleLoop lines fuel i with
        | none => none
        | some exampleText =>
          let seeAlsoIndex := findSeeAlsoIndex content seeAlsoPatterns
          some { title := title
                 description := description
                 syntaxRows := rows
                 exampleText := exampleText
                 markdown :=
                   if seeAlsoIndex ≠ -1 then trim (substring0 content seeAlsoIndex) else content
                 summary := makeSummary description title }

/-- The index of a cursor: the number of lines before it. -/
def cursorIndex (lines cur : List Str) : Nat := lines.length - cur.length

/-! ## The command loader: `command-loader.js` -/

/-- A command object as the loader stores it and the providers read it: an entry of
`commands-enhanced.json` or of `commands.json` as parsed.  The fields `markdown`,
`summary`, `syntax` (here `syntaxRows`) and `example` (here `exampleText`) are `none` when
the entry has no such field. -/
structure CommandRecord where
  name : Str
  description : Str
  usage : Str
  category : Option Str
  other : List (Str × Str)
  markdown : Option Str
  summary : Option Str
  syntaxRows : Option (List SyntaxRow)
  exampleText : Option Str
deriving DecidableEq, Repr

/-- The object that `JSON.parse` gives for an entry of `commands.json`. -/
def BaselineRecord.toCommand (b : BaselineRecord) : CommandRecord :=
  { name := b.name, description := b.description, usage := b.usage, category := b.category,
    other := b.other, markdown := none, summary := none, syntaxRows := none,
    exampleText := none }

/-- The object that `JSON.parse` gives for an entry of `commands-enhanced.json`: a field
whose value was `undefined` is not written by `JSON.stringify`, so it is absent. -/
def MergedRecord.toCommand (r : MergedRecord) : CommandRecord :=
  { name := r.name, description := r.description, usage := r.usage, category := r.category,
    other := r.other, markdown := r.markdown, summary := r.summary,
    syntaxRows := r.syntaxRows, exampleText := r.exampleText }

/-- A JavaScript `Map` from names to command objects: its entries in insertion order, no
key twice. -/
abbrev CommandMap := List (Str × CommandRecord)

/-- The method `Map.prototype.set`: the value of an existing key is replaced where the key
stands, a new key is added at the end. -/
def mapSet : CommandMap → Str → CommandRecord → CommandMap
  | [], k, v => [(k, v)]
  | (k', v') :: rest, k, v => if k' = k then (k, v) :: rest else (k', v') :: mapSet rest k v

/-- The method `Map.prototype.get`; `none` stands for `undefined`. -/
def mapGet : CommandMap → Str → Option CommandRecord
  | [], _ => none
  | (k', v') :: rest, k => if k' = k then some v' else mapGet rest k

/-- The method `Map.prototype.has`. -/
def mapHas (m : CommandMap) (k : Str) : Bool := (mapGet m k).isSome

/-- The keys of a map in insertion order: `Array.from(map.keys())`. -/
def mapKeys (m : CommandMap) : List Str := m.map Prod.fst

/-- The property `size` of a map. -/
def mapSize (m : CommandMap) : Nat := m.length

/-- A data file as the loader finds it: not there, there but such that reading or parsing
it throws, or holding a list of command objects. -/
inductive DataFile where
  | missing
  | unreadable
  | records (commandData : List CommandRecord)
deriving DecidableEq, Repr

/-- The two files the loader reads: `data/commands-enhanced.json` and `commands.json`. -/
structure Files where
  enhanced : DataFile
  baseline : DataFile
deriving DecidableEq, Repr

/-- The fields of a `CommandLoader` that change (the field `dataPath` does not). -/
structure CommandLoader where
  commandMap : CommandMap
  loaded : Bool
deriving DecidableEq, Repr

/-- The state set up by the constructor. -/
def CommandLoader.new : CommandLoader := { commandMap := [], loaded := false }

/-- The map after `commandMap.clear()` and the loop `commandMap.set(cmd.name, cmd)` over
the parsed data. -/
def fillMap (commandData : List CommandRecord) : CommandMap :=
  commandData.foldl (fun m cmd => mapSet m cmd.name cmd) []

/-- The method `loadFallback()`: the value returned and the state left. -/
def CommandLoader.loadFallback (files : Files) (s : CommandLoader) : Bool × CommandLoader :=
  match files.baseline with
  | .missing => (false, s)
  | .unreadable => (false, s)
  | .records commandData => (true, { commandMap := fillMap commandData, loaded := true })

/-- The method `load()`: the value returned and the state left. -/
def CommandLoader.load (files : Files) (s : CommandLoader) : Bool × CommandLoader :=
  if s.loaded then (true, s)
  else
    match files.enhanced with
    | .missing => s.loadFallback files
    | .unreadable => s.loadFallback files
    | .records commandData => (true, { commandMap := fillMap commandData, loaded := true })

/-- The state after the guard `if (!this.loaded) this.load()` that opens the reading
methods. -/
def CommandLoader.ensureLoaded (files : Files) (s : CommandLoader) : CommandLoader :=
  if !s.loaded then (s.load files).2 else s

/-- The method `getCommand(name)`: the value returned (`none` for `undefined`) and the
state left. -/
def CommandLoader.getCommand (files : Files) (s : CommandLoader) (name : Str) :
    Option CommandRecord × CommandLoader :=
  (mapGet (s.ensureLoaded files).commandMap name, s.ensureLoaded files)

/-- The method `getAllCommandNames()`. -/
def CommandLoader.getAllCommandNames (files : Files) (s : CommandLoader) :
    List Str × CommandLoader :=
  (mapKeys (s.ensureLoaded files).commandMap, s.ensureLoaded files)

/-- The method `hasCommand(name)`. -/
def CommandLoader.hasCommand (files : Files) (s : CommandLoader) (name : Str) :
    Bool × CommandLoader :=
  (mapHas (s.ensureLoaded files).commandMap name, s.ensureLoaded files)

/-- The method `getCommandCount()`. -/
def CommandLoader.getCommandCount (files : Files) (s : CommandLoader) : Nat × CommandLoader :=
  (mapSize (s.ensureLoaded files).commandMap, s.ensureLoaded files)

/-- The method `preload()`: the state left. -/
def CommandLoader.preload (files : Files) (s : CommandLoader) : CommandLoader :=
  s.ensureLoaded files

/-- The method `clear()`: the state left. -/
def CommandLoader.clear (_s : CommandLoader) : CommandLoader :=
  { commandMap := [], loaded := false }

/-- The data that a call of `load()` reads: the enhanced file when it holds a list, the
baseline file when the enhanced file is missing or unreadable and the baseline file holds
a list. -/
def Files.dataRead (files : Files) : Option (List CommandRecord) :=
  match files.enhanced with
  | .records commandData => some commandData
  | _ =>
    match files.baseline with
    | .records commandData => some commandData
    | _ => none

/-- The distinct elements of a list, each once, in the order of their first occurrence, in
the specification's words: the first element, then the distinct elements of the rest
without it. -/
def firstOccurrences : List Str → List Str
  | [] => []
  | a :: l => a :: (firstOccurrences l).filter (fun b => b != a)

/-! ## The hover provider: `hover-provider.js` -/

/-- The class `vscode.MarkdownString` as far as the hover provider uses it, with the
behaviour of the class of that name defined in `test/hover-provider.test.js`. -/
structure MarkdownString where
  value : Str
  isTrusted : Bool
  supportHtml : Bool
deriving DecidableEq, Repr

/-- The test `if (s)` on a value that is a string or `undefined`: true for a non-empty
string. -/
def isTruthy (s : Option Str) : Bool :=
  match s with
  | some t => t != []
  | none => false

/-- The constructor `new MarkdownString(value)`: the value is `value || ''`. -/
def MarkdownString.new (value : Option Str) : MarkdownString :=
  { value := value.getD [], isTrusted := false, supportHtml := false }

/-- The method `appendMarkdown(text)`. -/
def MarkdownString.appendMarkdown (md : MarkdownString) (text : Str) : MarkdownString :=
  { md with value := md.value ++ text }

/-- The method `appendCodeblock(text, language)`. -/
def MarkdownString.appendCodeblock (md : MarkdownString) (text language : Str) :
    MarkdownString :=
  { md with value := md.value ++ "```".toList ++ language ++ "\n".toList ++ text ++
      "\n```\n".toList }

/-- The method `HoverProvider.createMarkdownContent(command)`. -/
def createMarkdownContent (command : CommandRecord) : MarkdownString :=
  if isTruthy command.markdown then
    { MarkdownString.new command.markdown with isTrusted := true, supportHtml := true }
  else
    let md := MarkdownString.new none
    let md := md.appendMarkdown ("### ".toList ++ command.name ++ "\n\n".toList)
    let md :=
      if command.description ≠ [] then md.appendMarkdown (command.description ++ "\n\n".toList)
      else md
    let md :=
      if command.usage ≠ [] then
        md.appendMarkdown ("**Usage:** `".toList ++ command.usage ++ "`\n\n".toList)
      else md
    let md :=
      if isTruthy command.category then
        md.appendMarkdown ("**Category:** ".toList ++ command.category.getD [] ++ "\n".toList)
      else md
    let md :=
      match command.syntaxRows with
      | some rows =>
        if rows.length > 0 then
          let md := md.appendMarkdown "\n**Syntax:**\n\n".toList
          let md := md.appendMarkdown "| Syntax | Description |\n".toList
          let md := md.appendMarkdown "|--------|-------------|\n".toList
          let md := rows.foldl (fun (md : MarkdownString) (syntaxItem : SyntaxRow) =>
            md.appendMarkdown ("| `".toList ++ syntaxItem.syntaxText ++ "` | ".toList ++
              syntaxItem.description ++ " |\n".toList)) md
          md.appendMarkdown "\n".toList
        else md
      | none => md
    let md :=
      if isTruthy command.exampleText then
        (md.appendMarkdown "**Example:**\n\n".toList).appendCodeblock
          (command.exampleText.getD []) "matlab".toList
      else md
    { md with isTrusted := true, supportHtml := true }

/-! ## The hover provider: the text of the basic format -/

/-- The line of the syntax table appended for a row. -/
def syntaxTableLine (syntaxItem : SyntaxRow) : Str :=
  "| `".toList ++ syntaxItem.syntaxText ++ "` | ".toList ++ syntaxItem.description ++
    " |\n".toList

/-- The text that `appendCodeblock(text, language)` appends. -/
def codeblockText (text language : Str) : Str :=
  ((MarkdownString.new none).appendCodeblock text language).value

/-! ## The completion provider: `completion-provider.js` -/

/-- The method `s.endsWith(p)`. -/
def endsWith (s p : Str) : Bool := p.isSuffixOf s

/-- The method `CompletionProvider.shouldSuggestCommands(linePrefix)`. -/
def shouldSuggestCommands (linePrefix : Str) : Bool :=
  let trimmed := trimEnd linePrefix
  if trimmed.length = 0 then true
  else if endsWith trimmed ";".toList then false
  else if includes trimmed "#".toList then false
  else true

/-- The value `vscode.CompletionItemKind.Function`, the only kind the provider uses. -/
inductive CompletionItemKind where
  | function
deriving DecidableEq, Repr

/-- The fields of a `vscode.CompletionItem` that the provider sets: `label` and `kind` by
the constructor, the others by assignment (`range` is set to `undefined` and left out). -/
structure CompletionItem where
  label : Str
  kind : CompletionItemKind
  detail : Str
  insertText : Str
  documentation : Option MarkdownString
deriving DecidableEq, Repr

/-- The method `CompletionProvider.createCompletionItem(commandName)`: the item returned
and the state in which the call of `getCommand` leaves the loader. -/
def createCompletionItem (files : Files) (s : CommandLoader) (commandName : Str) :
    CompletionItem × CommandLoader :=
  let r := s.getCommand files commandName
  let detail : Str :=
    match r.1 with
    | some command =>
      if isTruthy command.summary then command.summary.getD []
      else if command.description ≠ [] then command.description
      else "Lumerical command".toList
    | none => "Lumerical command".toList
  let documentation : Option MarkdownString :=
    match r.1 with
    | some command =>
      if isTruthy command.markdown then
        let doc := MarkdownString.new none
        let doc := doc.appendMarkdown ("**".toList ++ commandName ++ "**\n\n".toList)
        let doc :=
          if isTruthy command.summary then
            doc.appendMarkdown (command.summary.getD [] ++ "\n\n".toList)
          else doc
        let doc :=
          if command.usage ≠ [] then
            doc.appendMarkdown ("Usage: `".toList ++ command.usage ++ "`".toList)
          else doc
        some doc
      else none
    | none => none
  ({ label := commandName, kind := CompletionItemKind.function, detail := detail,
     insertText := commandName ++ "();".toList, documentation := documentation }, r.2)

/-- The loop of `suggestions.map(name => this.createCompletionItem(name))`: the items
built so far and the state of the loader, after the names given. -/
def createCompletionItems (files : Files) (names : List Str)
    (start : List CompletionItem × CommandLoader) : List CompletionItem × CommandLoader :=
  names.foldl (fun (acc : List CompletionItem × CommandLoader) (name : Str) =>
    ((acc.1 ++ [(createCompletionItem files acc.2 name).1]),
      (createCompletionItem files acc.2 name).2)) start

/-- The method `CompletionProvider.provideCompletionItems`, given the array
`this.commandNames`, the text of the line up to the cursor and the word at the cursor
(empty when there is none): the items returned and the state of the loader.  The method
`toLowerCase` of strings is the parameter `toLower`. -/
def provideCompletionItems (toLower : Str → Str) (files : Files) (s : CommandLoader)
    (commandNames : List Str) (linePrefix currentWord : Str) :
    List CompletionItem × CommandLoader :=
  if !shouldSuggestCommands linePrefix then ([], s)
  else
    let suggestions :=
      commandNames.filter (fun name => startsWith (toLower name) (toLower currentWord))
    createCompletionItems files suggestions ([], s)

/-- The method `loadCommandNames()`, called by the constructor: the array
`this.commandNames` and the state of the loader. -/
def loadCommandNames (files : Files) (s : CommandLoader) : List Str × CommandLoader :=
  s.getAllCommandNames files

/-! ## Sample inputs -/

/-- The document `abs.md` of the end-to-end sample: its thirteen lines. -/
def absDocument : Str :=
  ("# abs\n\nReturns absolute value.\n\n| Syntax | Description |\n|---|---|\n" ++
   "| abs(x) | Absolute value of x |\n\n**Example**\n\n```\nabs(-2)\n```").toList

/-- A baseline list whose one entry has the name of a function that every plain object
inherits. -/
def toStringBaseline : List BaselineRecord :=
  [{ name := "toString".toList, description := "Converts to a string".toList,
     usage := "toString(x)".toList, category := none, other := [] }]

/-- The baseline list of the end-to-end sample. -/
def absBaseline : List BaselineRecord :=
  [{ name := "abs".toList, description := "Lumerical command: abs".toList,
     usage := "abs(x)".toList, category := none, other := [] }]

/-- A baseline list of one entry that has a category and one further field. -/
def categorisedBaseline : List BaselineRecord :=
  [{ name := "abs".toList, description := [], usage := "abs(x)".toList,
     category := some "math".toList, other := [("since".toList, "2020".toList)] }]

/-- A document in the expected order with no syntax table: heading, description, the
label, a blank line and a fenced block of two code lines. -/
def exampleOnlyDocument : Str :=
  "# abs\n\nReturns absolute value.\n\n**Example**\n\n```\nx = abs(-2);\n?x;\n```".toList

/-- The same document with a syntax table between the description and the label. -/
def tableAndExampleDocument : Str :=
  ("# abs\n\nReturns absolute value.\n\n| Syntax | Description |\n|---|---|\n" ++
   "| abs(x) | Absolute value of x |\n\n**Example**\n\n```\nx = abs(-2);\n?x;\n```").toList

/-- The sample document without its closing fence. -/
def unterminatedDocument : Str :=
  ("# abs\n\nReturns absolute value.\n\n| Syntax | Description |\n|---|---|\n" ++
   "| abs(x) | Absolute value of x |\n\n**Example**\n\n```\nabs(-2)").toList

/-- The sample document with the label and no fence at all. -/
def labelOnlyDocument : Str :=
  ("# abs\n\nReturns absolute value.\n\n| Syntax | Description |\n|---|---|\n" ++
   "| abs(x) | Absolute value of x |\n\n**Example**\n\nabs(-2)").toList

/-- A document whose prose says `See Also` before its `**See Also**` section. -/
def seeAlsoTwiceDocument : Str :=
  "# abs\n\nSee Also the notes below.\n\n**See Also**\n\nsqrt, mod".toList

/-- A document that ends with a `**See Also**` section. -/
def seeAlsoDocument : Str :=
  "# abs\n\nReturns absolute value.\n\n**See Also**\n\nsqrt, mod".toList

/-- A text in which `see` and `also` both occur but `see also` does not. -/
def seeColonAlsoDocument : Str := "  # abs \n\nSee: also \n".toList

/-- A text whose description starts with a period. -/
def leadingPeriodDocument : Str := "# abs\n\n.5 is returned for a half.".toList

/-- A text whose heading continues with a second `#` after the marker and a blank. -/
def doubleMarkerDocument : Str := "# #include\n\nInserts a file.".toList

/-- A text with a title, two prose lines and a table line. -/
def twoProseLinesDocument : Str :=
  "# abs\n  Returns the absolute value.  \nWorks on matrices.\n| Syntax | Description |".toList

/-- A text whose table has a header, a separator, a row with bold cells, a row with one
cell and a third row. -/
def tableDocument : Str :=
  ("# abs\n\nReturns absolute value.\n\n| Syntax | Description |\n|---|---|\n" ++
   "| **abs(x)** | Absolute **value** of x |\n| only one cell |\n| abs(A) | For a matrix |\n" ++
   "\nNotes.").toList

/-- The state of the files and of the loader used in the witnesses: the enhanced file
holds two entries named `abs` around one named `acos`. -/
def repeatedNameData : List CommandRecord :=
  [{ name := "abs".toList, description := "first".toList, usage := "abs(x)".toList,
     category := none, other := [], markdown := some "# abs".toList, summary := none,
     syntaxRows := some [], exampleText := some [] },
   { name := "acos".toList, description := "arc cosine".toList, usage := "acos(x)".toList,
     category := none, other := [], markdown := none, summary := none,
     syntaxRows := none, exampleText := none },
   { name := "abs".toList, description := "second".toList, usage := "abs(x)".toList,
     category := none, other := [], markdown := none, summary := none,
     syntaxRows := none, exampleText := none }]

/-- Files in which the enhanced file holds `repeatedNameData` and the baseline file is
missing. -/
def repeatedNameFiles : Files :=
  { enhanced := .records repeatedNameData, baseline := .missing }

/-- Files in which the enhanced file is missing and the baseline file holds the sample
baseline. -/
def fallbackFiles : Files :=
  { enhanced := .missing, baseline := .records (absBaseline.map BaselineRecord.toCommand) }

/-- The command object of the test `createMarkdownContent should use enhanced markdown`. -/
def enhancedTestCommand : CommandRecord :=
  { name := "testcmd".toList, description := "Test command description".toList,
    usage := "testcmd();".toList, category := some "test".toList, other := [],
    markdown := some "# Test Command\n\nThis is a test command.".toList,
    summary := some "Test command summary".toList, syntaxRows := some [],
    exampleText := some [] }

/-- A text whose description is one sentence of more than 100 units. -/
def longSentenceDocument : Str :=
  ("# interpolate\n\nReturns the values of a data set interpolated linearly onto a new set " ++
   "of points that may lie anywhere inside the original range of the data. See interp.").toList

/-- A text whose first non-blank line is `# Foo` with white space around it. -/
def fooDocument : Str := "\n  # Foo  \nbar".toList

/-- A table line whose cells hold bold markers, among them `***`. -/
def boldCellsDocument : Str :=
  "# abs\n\n| Syntax | Description |\n|---|---|\n| ***abs(x)** | **Absolute** value *** |".toList

/-- A text with a table, a label and a fenced block but no heading line. -/
def noHeadingDocument : Str :=
  ("Returns absolute value.\n\n| Syntax | Description |\n|---|---|\n" ++
   "| abs(x) | Absolute value of x |\n\n**Example**\n\n```\nabs(-2)\n```\n\n" ++
   "**See Also**\n\nsqrt").toList

/-- Files neither of which can be read. -/
def noFiles : Files := { enhanced := .missing, baseline := .unreadable }

/-- The command names used in the witness. -/
def sampleCommandNames : List Str := ["abs".toList, "acos".toList, "Box".toList]

/-- The command object of the test `createMarkdownContent should format basic command`. -/
def basicTestCommand : CommandRecord :=
  { name := "basiccmd".toList, description := "Basic command description".toList,
    usage := "basiccmd();".toList, category := some "general".toList, other := [],
    markdown := none, summary := none,
    syntaxRows := some [{ syntaxText := "basiccmd();".toList,
                          description := "Runs basic command".toList }],
    exampleText := some "basiccmd();\n// Output: result".toList }

/-- The command object of the test `createMarkdownContent should handle missing category`. -/
def noCategoryTestCommand : CommandRecord :=
  { name := "nocategory".toList, description := "No category command".toList,
    usage := "nocategory();".toList, category := some [], other := [],
    markdown := none, summary := none, syntaxRows := some [], exampleText := some [] }

/-! ## Lemmas on the string methods -/

/-- The method `startsWith` decides the prefix relation. -/
theorem startsWith_iff (s p : Str) : startsWith s p = true ↔ p <+: s := by
  simp [startsWith]

/-- The search returns `-1` exactly when the pattern occurs nowhere. -/
theorem indexOfFrom_eq_neg_one_iff (p s : Str) (k : Nat) :
    indexOfFrom p s k = -1 ↔ ¬ p <:+: s := by
  induction s generalizing k with
  | nil =>
    by_cases hp : p = []
    · subst hp
      simp [indexOfFrom, startsWith]
    · have : startsWith [] p = false := by
        cases p with
        | nil => exact absurd rfl hp
        | cons a t => rfl
      simp [indexOfFrom, this, hp]
  | cons c cs ih =>
    rw [indexOfFrom, List.infix_cons_iff]
    by_cases h : startsWith (c :: cs) p = true
    · have hpre := (startsWith_iff _ _).1 h
      simp only [h, if_true]
      constructor
      · intro hk
        omega
      · intro hn
        exact absurd (Or.inl hpre) hn
    · have hpre : ¬ p <+: c :: cs := fun hx => h ((startsWith_iff _ _).2 hx)
      simp only [h, if_false, Bool.false_eq_true]
      rw [ih]
      simp [hpre]

/-- The method `indexOf` finds a position exactly when the pattern occurs. -/
theorem indexOf_ne_neg_one_iff (s p : Str) : indexOf s p ≠ -1 ↔ p <:+: s := by
  rw [indexOf, Ne, indexOfFrom_eq_neg_one_iff, not_not]

/-- The method `includes` decides the occurrence relation. -/
theorem includes_iff (s p : Str) : includes s p = true ↔ p <:+: s := by
  simp [includes, indexOf_ne_neg_one_iff]

/-- When `p` occurs in `s`, `indexOfFrom` returns the position of its first occurrence. -/
theorem indexOfFrom_spec (p s : Str) (k : Nat) (h : p <:+: s) :
    ∃ a b, s = a ++ p ++ b ∧ indexOfFrom p s k = ((k + a.length : Nat) : Int) ∧
      ∀ a' b', s = a' ++ p ++ b' → a.length ≤ a'.length := by
  induction s generalizing k with
  | nil =>
    have hp : p = [] := List.infix_nil.1 h
    subst hp
    exact ⟨[], [], rfl, by simp [indexOfFrom, startsWith], by simp⟩
  | cons c cs ih =>
    by_cases hs : startsWith (c :: cs) p = true
    · obtain ⟨b, hb⟩ := (startsWith_iff _ _).1 hs
      exact ⟨[], b, by simpa using hb.symm, by simp [indexOfFrom, hs], by simp⟩
    · have hpre : ¬ p <+: c :: cs := fun hx => hs ((startsWith_iff _ _).2 hx)
      have hin : p <:+: cs := by
        rcases List.infix_cons_iff.1 h with h1 | h1
        · exact absurd h1 hpre
        · exact h1
      obtain ⟨a, b, hab, hidx, hmin⟩ := ih (k + 1) hin
      refine ⟨c :: a, b, by simp [hab], ?_, ?_⟩
      · rw [indexOfFrom]
        simp only [hs, if_false, Bool.false_eq_true]
        rw [hidx]
        simp only [List.length_cons]
        congr 1
        omega
      · intro a' b' hab'
        cases a' with
        | nil =>
          exact absurd ⟨b', by simpa using hab'.symm⟩ hpre
        | cons x a'' =>
          simp only [List.cons_append, List.cons.injEq] at hab'
          have := hmin a'' b' (by simpa using hab'.2)
          simp only [List.length_cons]
          omega

/-- Lower-casing works unit by unit, so it distributes over concatenation. -/
theorem toLowerCase_append (a b : Str) :
    toLowerCase (a ++ b) = toLowerCase a ++ toLowerCase b := by
  induction a with
  | nil => rfl
  | cons c cs ih => simp [toLowerCase, ih]

/-- Lower-casing keeps occurrences: what occurs in a text occurs, lower-cased, in the
lower-cased text. -/
theorem toLowerCase_occurs {x y : Str} (h : x <:+: y) : toLowerCase x <:+: toLowerCase y := by
  obtain ⟨s, t, rfl⟩ := h
  exact ⟨toLowerCase s, toLowerCase t, by simp [toLowerCase_append]⟩

/-- Every unit except U+0130 has a lower-case form of one unit. -/
theorem toLowerCaseUnit_length (c : Char) (h : c.toNat ≠ 0x130) :
    (toLowerCaseUnit c).length = 1 := by
  unfold toLowerCaseUnit
  split_ifs <;> simp_all

/-- In a text without U+0130, lower-casing keeps positions: the lower-case form of the
first `n` units is the first `n` units of the lower-case form. -/
theorem toLowerCase_take (s : Str) (n : Nat) (h : ∀ c ∈ s, c.toNat ≠ 0x130) :
    toLowerCase (s.take n) = (toLowerCase s).take n := by
  induction s generalizing n with
  | nil => simp [toLowerCase]
  | cons c cs ih =>
    cases n with
    | zero => simp [toLowerCase]
    | succ m =>
      have hc := toLowerCaseUnit_length c (h c (by simp))
      have hcs := ih m (fun x hx => h x (by simp [hx]))
      simp only [List.take_succ_cons, toLowerCase, hcs]
      rw [List.take_append_eq_append_take, hc]
      simp [List.take_of_length_le, hc]

/-- When the first `n` units of a text hold no U+0130, the lower-case form of those units
is the first `n` units of the lower-case form of the text. -/
theorem toLowerCase_take_of_head (s : Str) (n : Nat)
    (h : ∀ c ∈ s.take n, c.toNat ≠ 0x130) :
    toLowerCase (s.take n) = (toLowerCase s).take n := by
  induction s generalizing n with
  | nil => simp [toLowerCase]
  | cons c cs ih =>
    cases n with
    | zero => simp [toLowerCase]
    | succ m =>
      have hc := toLowerCaseUnit_length c (h c (by simp))
      have hcs := ih m (fun x hx => h x (by simp [hx]))
      simp only [List.take_succ_cons, toLowerCase, hcs]
      rw [List.take_append_eq_append_take, hc]
      simp [List.take_of_length_le, hc]

/-- The trimmed string is a part of the string. -/
theorem trim_occurs (s : Str) : trim s <:+: s := by
  have h1 : trimStart s <:+ s := List.dropWhile_suffix _
  have h2 : trimEnd (trimStart s) <+: trimStart s := by
    unfold trimEnd
    have := List.dropWhile_suffix (l := (trimStart s).reverse) isWhiteSpace
    simpa using List.reverse_prefix.2 this
  exact h2.isInfix.trans h1.isInfix

/-- The element at which `dropWhile` stops does not satisfy the test. -/
theorem dropWhile_cons_head_false {α : Type} (p : α → Bool) (l : List α) (x : α)
    (rest : List α) (h : l.dropWhile p = x :: rest) : p x = false := by
  have := List.head?_dropWhile_not p l
  rw [h] at this
  simpa using this

/-- What follows an element failing the test also follows the first element failing it. -/
theorem mem_drop_dropWhile {α : Type} (p : α → Bool) (pre : List α) (l : α) (rest : List α)
    (x : α) (hl : p l = false) (hx : x ∈ rest) :
    x ∈ ((pre ++ l :: rest).dropWhile p).drop 1 := by
  induction pre with
  | nil => simpa [List.dropWhile_cons, hl] using hx
  | cons y pre ih =>
    by_cases hy : p y = true
    · simpa [List.dropWhile_cons, hy] using ih
    · simp [List.dropWhile_cons, hy, hx]

/-! ## Lemmas on the trailing-section loop -/

/-- The loop over the patterns ends with `-1` exactly when no pattern occurs. -/
theorem findSeeAlsoIndex_eq_neg_one_iff (content : Str) (ps : List Str) :
    findSeeAlsoIndex content ps = -1 ↔
      ∀ p ∈ ps, ¬ toLowerCase p <:+: toLowerCase content := by
  induction ps with
  | nil => simp [findSeeAlsoIndex]
  | cons p rest ih =>
    simp only [findSeeAlsoIndex, List.mem_cons, forall_eq_or_imp]
    by_cases h : indexOf (toLowerCase content) (toLowerCase p) = -1
    · have hn : ¬ toLowerCase p <:+: toLowerCase content := fun hx =>
        (indexOf_ne_neg_one_iff _ _).2 hx h
      simp [h, ih, hn]
    · have hy : toLowerCase p <:+: toLowerCase content := (indexOf_ne_neg_one_iff _ _).1 h
      simp [h, hy]

/-- The loop over the patterns stops at the first pattern, in the order of the array, that
occurs in the lower-cased text, and returns where that pattern first occurs. -/
theorem findSeeAlsoIndex_first (content : Str) (ps : List Str)
    (h : ∃ p ∈ ps, toLowerCase p <:+: toLowerCase content) :
    ∃ pre p post, ps = pre ++ p :: post ∧
      (∀ q ∈ pre, ¬ toLowerCase q <:+: toLowerCase content) ∧
      toLowerCase p <:+: toLowerCase content ∧
      findSeeAlsoIndex content ps = indexOf (toLowerCase content) (toLowerCase p) := by
  induction ps with
  | nil => simp at h
  | cons p rest ih =>
    by_cases hp : toLowerCase p <:+: toLowerCase content
    · refine ⟨[], p, rest, rfl, by simp, hp, ?_⟩
      have := (indexOf_ne_neg_one_iff _ _).2 hp
      simp [findSeeAlsoIndex, this]
    · have hrest : ∃ q ∈ rest, toLowerCase q <:+: toLowerCase content := by
        obtain ⟨q, hq, hq'⟩ := h
        rcases List.mem_cons.1 hq with rfl | hq
        · exact absurd hq' hp
        · exact ⟨q, hq, hq'⟩
      obtain ⟨pre, q, post, hps, hpre, hq, hidx⟩ := ih hrest
      refine ⟨p :: pre, q, post, by simp [hps], ?_, hq, ?_⟩
      · intro x hx
        rcases List.mem_cons.1 hx with rfl | hx
        · exact hp
        · exact hpre x hx
      · have : indexOf (toLowerCase content) (toLowerCase p) = -1 := by
          by_contra hne
          exact hp ((indexOf_ne_neg_one_iff _ _).1 hne)
        simp [findSeeAlsoIndex, this, hidx]

/-- Every pattern of the array, in lower case, contains `see also`. -/
theorem see_also_infix_of_pattern :
    ∀ p ∈ seeAlsoPatterns, "see also".toList <:+: toLowerCase p := by
  decide

/-- No pattern of the array is empty. -/
theorem toLowerCase_pattern_ne_nil : ∀ p ∈ seeAlsoPatterns, toLowerCase p ≠ [] := by
  decide

/-! ## Lemmas on the line cursor -/

/-- The title scan leaves a suffix of the lines. -/
theorem scanTitle_suffix (lines : List Str) : (scanTitle lines).2 <:+ lines := by
  unfold scanTitle
  have hs := List.dropWhile_suffix (l := lines) (fun l => !startsWith (trim l) "#".toList)
  cases hcur : lines.dropWhile (fun l => !startsWith (trim l) "#".toList) with
  | nil => simp
  | cons l rest =>
    rw [hcur] at hs
    by_cases hl : startsWith (trim l) "#".toList = true
    · simp only [hl, if_true]
      exact (List.suffix_cons l rest).trans hs
    · simp only [hl, if_false, Bool.false_eq_true]
      exact hs

/-- Skipping empty lines leaves a suffix of the cursor. -/
theorem skipEmptyLines_suffix (cur : List Str) : skipEmptyLines cur <:+ cur :=
  List.dropWhile_suffix _

/-- The description scan leaves a suffix of the cursor. -/
theorem scanDescription_suffix (cur : List Str) : (scanDescription cur).2 <:+ cur :=
  List.dropWhile_suffix _

/-- The table scan leaves a suffix of the cursor. -/
theorem scanTable_suffix (cur : List Str) : (scanTable cur).2 <:+ cur := by
  unfold scanTable
  have hs := List.dropWhile_suffix (l := cur) (fun l => !isTableLine l)
  cases hcur : cur.dropWhile (fun l => !isTableLine l) with
  | nil => simp
  | cons l rest =>
    rw [hcur] at hs
    have hd : List.dropWhile isTableLine (l :: rest) <:+ cur :=
      (List.dropWhile_suffix _).trans hs
    by_cases hl : isTableLine l = true
    · by_cases hlen : (List.takeWhile isTableLine (l :: rest)).length ≥ 2
      · simp only [hl, if_true, hlen]
        exact hd
      · simp only [hl, if_true, hlen, if_false]
        exact hd
    · simp only [hl, if_false, Bool.false_eq_true]
      exact hs

/-- The cursor from which `parseMarkdown` scans for the example: what the title,
description and table scans have left of the lines. -/
theorem exampleText_eq (content : Str) :
    ∃ cur, cur <:+ split '\n' content ∧ (parseMarkdown content).exampleText = scanExample cur :=
  ⟨_, (scanTable_suffix _).trans ((scanDescription_suffix _).trans
    ((skipEmptyLines_suffix _).trans (scanTitle_suffix _))), rfl⟩

/-- An empty line is not a fence. -/
theorem isFence_of_blank (l : Str) (h : (trim l == []) = true) : isFence l = false := by
  have : trim l = [] := by simpa using h
  simp [isFence, this, startsWith]

/-- Without a table line at or after the cursor, the table scan consumes every line. -/
theorem scanTable_cursor_nil (cur : List Str) (h : ∀ l ∈ cur, isTableLine l = false) :
    (scanTable cur).2 = [] := by
  have hnil : cur.dropWhile (fun l => !isTableLine l) = [] := by
    rw [List.dropWhile_eq_nil_iff]
    intro l hl
    simp [h l hl]
  simp [scanTable, hnil]

/-- In a text none of whose lines has a trimmed form starting with `|`, the example scan
starts at the end of the input and the example returned is empty, whatever label and
fenced block the text contains. -/
theorem exampleText_nil_of_no_table_line (content : Str)
    (h : ∀ l ∈ split '\n' content, isTableLine l = false) :
    (parseMarkdown content).exampleText = [] := by
  have hsuf : (scanDescription (skipEmptyLines (scanTitle (split '\n' content)).2)).2 <:+
      split '\n' content :=
    (scanDescription_suffix _).trans ((skipEmptyLines_suffix _).trans (scanTitle_suffix _))
  have hcur := scanTable_cursor_nil _ (fun l hl => h l (hsuf.subset hl))
  simp [parseMarkdown, hcur, scanExample]

/-- What the example scan returns from a cursor: nothing, or the trimmed join of the lines
between the first fence after the first label line and the next fence or the end. -/
theorem scanExample_spec (cur : List Str) :
    scanExample cur = [] ∨
    ∃ pre l mid f code post, cur = pre ++ l :: (mid ++ f :: (code ++ post)) ∧
      isExampleLabel l = true ∧ isFence f = true ∧
      (∀ x ∈ mid, isFence x = false) ∧ (∀ x ∈ code, isFence x = false) ∧
      (post = [] ∨ ∃ g post', post = g :: post' ∧ isFence g = true) ∧
      scanExample cur = trim (join "\n".toList code) := by
  unfold scanExample
  have h1 := List.takeWhile_append_dropWhile (fun l => !isExampleLabel l) cur
  cases hc1 : cur.dropWhile (fun l => !isExampleLabel l) with
  | nil => exact Or.inl rfl
  | cons l rest =>
    have hl : isExampleLabel l = true := by
      simpa using dropWhile_cons_head_false _ _ _ _ hc1
    simp only [hl, if_true]
    have h2 := List.takeWhile_append_dropWhile (fun l => trim l == []) rest
    have h3 := List.takeWhile_append_dropWhile (fun l => !isFence l) (skipEmptyLines rest)
    cases hc3 : (skipEmptyLines rest).dropWhile (fun l => !isFence l) with
    | nil => exact Or.inl rfl
    | cons f rest2 =>
      have hf : isFence f = true := by
        simpa using dropWhile_cons_head_false _ _ _ _ hc3
      simp only [hf, if_true]
      have h4 := List.takeWhile_append_dropWhile (fun l => !isFence l) rest2
      refine Or.inr ⟨cur.takeWhile (fun l => !isExampleLabel l), l,
        rest.takeWhile (fun l => trim l == []) ++
          (skipEmptyLines rest).takeWhile (fun l => !isFence l), f,
        rest2.takeWhile (fun l => !isFence l), rest2.dropWhile (fun l => !isFence l),
        ?_, hl, hf, ?_, ?_, ?_, rfl⟩
      · rw [h4, List.append_assoc, ← hc3, h3]
        unfold skipEmptyLines
        rw [h2, ← hc1, h1]
      · intro x hx
        rcases List.mem_append.1 hx with hx | hx
        · exact isFence_of_blank x
            (List.mem_takeWhile_imp (p := fun l : Str => trim l == []) (l := rest) hx)
        · simpa using List.mem_takeWhile_imp hx
      · intro x hx
        simpa using List.mem_takeWhile_imp hx
      · cases hc5 : rest2.dropWhile (fun l => !isFence l) with
        | nil => exact Or.inl rfl
        | cons g post' =>
          refine Or.inr ⟨g, post', rfl, ?_⟩
          simpa using dropWhile_cons_head_false _ _ _ _ hc5

/-! ## Lemmas on the example of a document with a table -/

/-- A line whose trimmed form is empty consists of white space only. -/
theorem all_whiteSpace_of_trim_nil (l : Str) (h : trim l = []) : ∀ c ∈ l, isWhiteSpace c = true := by
  unfold trim trimEnd at h
  have h1 : (trimStart l).reverse.dropWhile isWhiteSpace = [] := by simpa using h
  rw [List.dropWhile_eq_nil_iff] at h1
  have h2 : trimStart l = [] := by
    cases hts : trimStart l with
    | nil => rfl
    | cons x rest =>
      have hx : isWhiteSpace x = false := dropWhile_cons_head_false isWhiteSpace l x rest hts
      have := h1 x (by rw [hts]; simp)
      rw [hx] at this
      exact absurd this (by decide)
  unfold trimStart at h2
  exact List.dropWhile_eq_nil_iff.1 h2

/-- A line whose trimmed form is empty does not contain the label. -/
theorem isExampleLabel_of_blank (l : Str) (h : trim l = []) : isExampleLabel l = false := by
  cases hl : isExampleLabel l with
  | false => rfl
  | true =>
    have hin : "**Example**".toList <:+: l := (includes_iff _ _).1 hl
    have hmem : '*' ∈ l := hin.subset (by decide)
    have := all_whiteSpace_of_trim_nil l h '*' hmem
    exact absurd this (by decide)

/-- A line whose trimmed form is empty is not a table line. -/
theorem isTableLine_of_blank (l : Str) (h : trim l = []) : isTableLine l = false := by
  simp [isTableLine, h, startsWith]

/-- The scan `dropWhile` passes a run of lines satisfying the test and stops at a line
failing it. -/
theorem dropWhile_run {α : Type} (p : α → Bool) (run : List α) (y : α) (rest : List α)
    (hrun : ∀ x ∈ run, p x = true) (hy : p y = false) :
    (run ++ y :: rest).dropWhile p = y :: rest := by
  rw [List.dropWhile_append_of_pos hrun, List.dropWhile_cons_of_neg (by simp [hy])]

/-- The scan `takeWhile` collects a run of lines satisfying the test and stops at a line
failing it. -/
theorem takeWhile_run {α : Type} (p : α → Bool) (run : List α) (y : α) (rest : List α)
    (hrun : ∀ x ∈ run, p x = true) (hy : p y = false) :
    (run ++ y :: rest).takeWhile p = run := by
  rw [List.takeWhile_append_of_pos hrun, List.takeWhile_cons_of_neg (by simp [hy])]
  simp

/-- From a cursor at blank lines followed by a label line, blank lines, an opening fence,
code lines that are not fences and a closing fence, the example scan returns the code
lines joined by newlines and trimmed. -/
theorem scanExample_block (b3 : List Str) (label : Str) (b4 : List Str) (fence1 : Str)
    (code : List Str) (fence2 : Str) (post : List Str)
    (hb3 : ∀ l ∈ b3, trim l = []) (hlabel : isExampleLabel label = true)
    (hb4 : ∀ l ∈ b4, trim l = []) (hf1 : isFence fence1 = true)
    (hcode : ∀ l ∈ code, isFence l = false) (hf2 : isFence fence2 = true) :
    scanExample (b3 ++ label :: (b4 ++ fence1 :: (code ++ fence2 :: post))) =
      trim (join "\n".toList code) := by
  have h1 : (b3 ++ label :: (b4 ++ fence1 :: (code ++ fence2 :: post))).dropWhile
      (fun l => !isExampleLabel l) = label :: (b4 ++ fence1 :: (code ++ fence2 :: post)) :=
    dropWhile_run _ b3 label _ (fun x hx => by simp [isExampleLabel_of_blank x (hb3 x hx)])
      (by simp [hlabel])
  have hf1blank : (trim fence1 == []) = false := by
    cases hb : (trim fence1 == []) with
    | false => rfl
    | true => rw [isFence_of_blank fence1 hb] at hf1; exact absurd hf1 (by decide)
  have h2 : skipEmptyLines (b4 ++ fence1 :: (code ++ fence2 :: post)) =
      fence1 :: (code ++ fence2 :: post) :=
    dropWhile_run _ b4 fence1 _ (fun x hx => by simp [hb4 x hx]) hf1blank
  have h3 : (fence1 :: (code ++ fence2 :: post)).dropWhile (fun l => !isFence l) =
      fence1 :: (code ++ fence2 :: post) :=
    List.dropWhile_cons_of_neg (by simp [hf1])
  have h4 : (code ++ fence2 :: post).takeWhile (fun l => !isFence l) = code :=
    takeWhile_run _ code fence2 post (fun x hx => by simp [hcode x hx]) (by simp [hf2])
  unfold scanExample
  simp only [h1, hlabel, if_true, h2, h3, hf1, h4]

/-- A scan with `dropWhile` over lines followed by a line failing the test stops at that
line or before it: what it leaves is a suffix of the lines, then that line, then the
rest. -/
theorem dropWhile_stops {α : Type} (p : α → Bool) (a : List α) (y : α) (rest : List α)
    (hy : p y = false) :
    ∃ m, m <:+ a ∧ (a ++ y :: rest).dropWhile p = m ++ y :: rest := by
  induction a with
  | nil => exact ⟨[], List.suffix_refl _, by simp [List.dropWhile_cons, hy]⟩
  | cons x a ih =>
    by_cases hx : p x = true
    · obtain ⟨m, hm, hd⟩ := ih
      exact ⟨m, hm.trans (List.suffix_cons x a), by simpa [List.dropWhile_cons, hx] using hd⟩
    · exact ⟨x :: a, List.suffix_refl _, by simp [List.dropWhile_cons, hx]⟩

/-- A table line is not empty and ends the description. -/
theorem isTableLine_ends (l : Str) (h : isTableLine l = true) :
    (trim l == []) = false ∧ isDescriptionEnd (trim l) = true := by
  unfold isTableLine at h
  constructor
  · cases ht : trim l with
    | nil => rw [ht] at h; exact absurd h (by decide)
    | cons c cs => rfl
  · have h' : startsWith (trim l) ['|'] = true := h
    simp [isDescriptionEnd, h']

/-- The example of a document with a syntax table.  Let the lines of a text be: lines
without a heading marker, a heading line, lines none of which is a table line (blank lines
and the description), a non-empty run of table lines, blank lines, a line containing the
label that is not itself a table line, blank lines, an opening fence, code lines none of
which is a fence, a closing fence, and anything after it.  Then the example returned is
the code lines joined by newlines and trimmed. -/
theorem exampleText_with_table (content : Str) (pre : List Str) (heading : Str)
    (mid table b3 : List Str) (label : Str) (b4 : List Str) (fence1 : Str) (code : List Str)
    (fence2 : Str) (post : List Str)
    (hlines : split '\n' content =
      pre ++ heading :: (mid ++ (table ++ (b3 ++ label ::
        (b4 ++ fence1 :: (code ++ fence2 :: post))))))
    (hpre : ∀ l ∈ pre, startsWith (trim l) "#".toList = false)
    (hheading : startsWith (trim heading) "#".toList = true)
    (hmid : ∀ l ∈ mid, isTableLine l = false)
    (htable : ∀ l ∈ table, isTableLine l = true) (hne : table ≠ [])
    (hb3 : ∀ l ∈ b3, trim l = [])
    (hlabel : isExampleLabel label = true) (hlt : isTableLine label = false)
    (hb4 : ∀ l ∈ b4, trim l = []) (hf1 : isFence fence1 = true)
    (hcode : ∀ l ∈ code, isFence l = false) (hf2 : isFence fence2 = true) :
    (parseMarkdown content).exampleText = trim (join "\n".toList code) := by
  obtain ⟨t0, table', rfl⟩ := List.exists_cons_of_ne_nil hne
  have ht0 : isTableLine t0 = true := htable t0 (by simp)
  obtain ⟨hnb, hend⟩ := isTableLine_ends t0 ht0
  -- the cursor after the title scan
  have htitle : (scanTitle (split '\n' content)).2 =
      mid ++ t0 :: (table' ++ (b3 ++ label :: (b4 ++ fence1 :: (code ++ fence2 :: post)))) := by
    unfold scanTitle
    rw [hlines, dropWhile_run _ pre heading _
      (fun x hx => by simpa using congrArg (fun b => !b) (hpre x hx))
      (by simpa using congrArg (fun b => !b) hheading)]
    simp only [if_pos hheading, List.cons_append]
  -- the cursor after the blank lines and the description
  obtain ⟨m1, hm1, hskip⟩ := dropWhile_stops (fun l => trim l == []) mid t0
    (table' ++ (b3 ++ label :: (b4 ++ fence1 :: (code ++ fence2 :: post)))) hnb
  obtain ⟨m2, hm2, hdesc⟩ := dropWhile_stops (fun l => !isDescriptionEnd (trim l)) m1 t0
    (table' ++ (b3 ++ label :: (b4 ++ fence1 :: (code ++ fence2 :: post)))) (by simp [hend])
  have hcur : (scanDescription (skipEmptyLines (scanTitle (split '\n' content)).2)).2 =
      m2 ++ t0 :: (table' ++ (b3 ++ label :: (b4 ++ fence1 :: (code ++ fence2 :: post)))) := by
    rw [htitle]
    unfold scanDescription skipEmptyLines
    rw [hskip, hdesc]
  have hm2t : ∀ l ∈ m2, isTableLine l = false := fun l hl =>
    hmid l ((hm2.trans hm1).subset hl)
  -- the cursor after the table scan
  have hrest : (b3 ++ label :: (b4 ++ fence1 :: (code ++ fence2 :: post))).dropWhile
      isTableLine = b3 ++ label :: (b4 ++ fence1 :: (code ++ fence2 :: post)) := by
    cases b3 with
    | nil => exact List.dropWhile_cons_of_neg (by simp [hlt])
    | cons x b3' =>
      exact List.dropWhile_cons_of_neg (by simp [isTableLine_of_blank x (hb3 x (by simp))])
  have htab : (scanTable (m2 ++ t0 :: (table' ++ (b3 ++ label ::
      (b4 ++ fence1 :: (code ++ fence2 :: post)))))).2 =
      b3 ++ label :: (b4 ++ fence1 :: (code ++ fence2 :: post)) := by
    unfold scanTable
    rw [dropWhile_run _ m2 t0 _ (fun x hx => by simp [hm2t x hx]) (by simp [ht0])]
    have hd : (t0 :: (table' ++ (b3 ++ label ::
        (b4 ++ fence1 :: (code ++ fence2 :: post))))).dropWhile isTableLine =
        b3 ++ label :: (b4 ++ fence1 :: (code ++ fence2 :: post)) := by
      rw [← List.cons_append, List.dropWhile_append_of_pos htable, hrest]
    simp only [ht0, if_true, hd]
    split_ifs <;> rfl
  have hex : (parseMarkdown content).exampleText =
      scanExample (scanTable
        (scanDescription (skipEmptyLines (scanTitle (split '\n' content)).2)).2).2 := rfl
  rw [hex, hcur, htab]
  exact scanExample_block b3 label b4 fence1 code fence2 post hb3 hlabel hb4 hf1 hcode hf2

/-- The sample with two code lines meets the hypotheses of `exampleText_with_table`. -/
theorem exampleText_with_table_sample :
    (parseMarkdown tableAndExampleDocument).exampleText =
      trim (join "\n".toList ["x = abs(-2);".toList, "?x;".toList]) :=
  exampleText_with_table tableAndExampleDocument [] "# abs".toList
    [[], "Returns absolute value.".toList, []]
    ["| Syntax | Description |".toList, "|---|---|".toList,
     "| abs(x) | Absolute value of x |".toList]
    [[]] "**Example**".toList [[]] "```".toList ["x = abs(-2);".toList, "?x;".toList]
    "```".toList [] (by decide) (by decide) (by decide) (by decide) (by decide) (by decide)
    (by decide) (by decide) (by decide) (by decide) (by decide) (by decide) (by decide)


/-! ## The merge: one record per baseline entry -/

/-- The loop of `mergeCommandData` appends one record per entry, in order, and changes
nothing in what it had already built. -/
theorem foldl_mergeStep_enhancedCommands (markdownDocs : DocMap) (cmds : List BaselineRecord)
    (st : MergeState) :
    (cmds.foldl (mergeStep markdownDocs) st).enhancedCommands =
      st.enhancedCommands ++ cmds.map (fun cmd => enhance cmd (markdownDocs cmd.name)) := by
  induction cmds generalizing st with
  | nil => simp
  | cons cmd rest ih => simp [List.foldl_cons, ih, mergeStep]

/-- The loop of `mergeCommandData` never assigns to the array it reads. -/
theorem foldl_mergeStep_existingCommands (markdownDocs : DocMap) (cmds : List BaselineRecord)
    (st : MergeState) :
    (cmds.foldl (mergeStep markdownDocs) st).existingCommands = st.existingCommands := by
  induction cmds generalizing st with
  | nil => rfl
  | cons cmd rest ih => simp [List.foldl_cons, ih, mergeStep]

/-- The array returned by `mergeCommandData` is the baseline array with the loop body
applied to each entry. -/
theorem mergeCommandData_eq_map (cmds : List BaselineRecord) (markdownDocs : DocMap) :
    mergeCommandData cmds markdownDocs =
      cmds.map (fun cmd => enhance cmd (markdownDocs cmd.name)) := by
  simp [mergeCommandData, mergeLoop, foldl_mergeStep_enhancedCommands]

/-- The record at position `i` of the result is the loop body applied to the baseline entry
at position `i`. -/
theorem mergeCommandData_getElem? (cmds : List BaselineRecord) (markdownDocs : DocMap)
    (i : Nat) :
    (mergeCommandData cmds markdownDocs)[i]? =
      (cmds[i]?).map (fun cmd => enhance cmd (markdownDocs cmd.name)) := by
  simp [mergeCommandData_eq_map]

/-- The name of a merged record is the name of its baseline entry, in both branches. -/
theorem enhance_name (cmd : BaselineRecord) (doc : DocValue) :
    (enhance cmd doc).name = cmd.name := by
  unfold enhance
  split <;> rfl

/-- The loop body on an entry whose name reads an object returned by `parseMarkdown`. -/
theorem enhance_document (cmd : BaselineRecord) (doc : ParsedDoc) :
    enhance cmd (.document doc) =
      { name := cmd.name
        description :=
          if doc.description ≠ [] ∧ doc.description ≠ placeholder cmd.name then
            doc.description
          else cmd.description
        usage := cmd.usage
        category := cmd.category
        other := cmd.other
        markdown := some doc.markdown
        summary := some doc.summary
        syntaxRows := some doc.syntaxRows
        exampleText := some doc.exampleText } :=
  rfl

/-- The loop body on an entry whose name reads a falsy value. -/
theorem enhance_of_falsy (cmd : BaselineRecord) (doc : DocValue) (h : doc.truthy = false) :
    enhance cmd doc =
      { name := cmd.name
        description := cmd.description
        usage := cmd.usage
        category := cmd.category
        other := cmd.other
        markdown := some ("### ".toList ++ cmd.name ++ "\n\n".toList ++ cmd.description ++
          "\n\n**Usage:** `".toList ++ cmd.usage ++ "`".toList)
        summary := some cmd.description
        syntaxRows := some [⟨cmd.usage, cmd.description⟩]
        exampleText := some [] } := by
  unfold enhance
  rw [h]
  rfl

/-- In the object built by `parseAllMarkdownFiles`, a key that is the name of no file is
not an own property. -/
theorem foldl_set_own (files : List (Str × Str)) (o : DocObject) (key : Str)
    (h : ∀ f ∈ files, f.1 ≠ key) :
    (files.foldl (fun commandDocs f => commandDocs.set f.1 (parseMarkdown f.2)) o).own key =
      o.own key := by
  induction files generalizing o with
  | nil => rfl
  | cons f rest ih =>
    rw [List.foldl_cons, ih _ (fun g hg => h g (List.mem_cons_of_mem _ hg))]
    have hf : f.1 ≠ key := h f (List.mem_cons_self _ _)
    unfold DocObject.set
    split
    · rfl
    · exact if_neg (fun hk => hf hk.symm)

/-- In the object built by `parseAllMarkdownFiles`, the prototype is replaced only by a
file named `__proto__`. -/
theorem foldl_set_proto (files : List (Str × Str)) (o : DocObject)
    (h : ∀ f ∈ files, f.1 ≠ "__proto__".toList) :
    (files.foldl (fun commandDocs f => commandDocs.set f.1 (parseMarkdown f.2)) o).proto =
      o.proto := by
  induction files generalizing o with
  | nil => rfl
  | cons f rest ih =>
    rw [List.foldl_cons, ih _ (fun g hg => h g (List.mem_cons_of_mem _ hg))]
    have hf : f.1 ≠ "__proto__".toList := h f (List.mem_cons_self _ _)
    unfold DocObject.set
    rw [if_neg hf]

/-- In the object built by `parseAllMarkdownFiles` from files none of which is named
`__proto__`, a key that is the name of no file and of no property of `Object.prototype`
reads `undefined`. -/
theorem parseAllMarkdownFiles_get_undefined (files : List (Str × Str)) (key : Str)
    (hfile : ∀ f ∈ files, f.1 ≠ key) (hproto : ∀ f ∈ files, f.1 ≠ "__proto__".toList)
    (hkey : key ∉ objectPrototypeKeys) (hk : key ≠ "__proto__".toList) :
    (parseAllMarkdownFiles files).get key = DocValue.undefined := by
  unfold DocObject.get parseAllMarkdownFiles
  rw [if_neg hk, foldl_set_own files _ key hfile, foldl_set_proto files _ hproto]
  simp [DocObject.empty, objectPrototypeGet, hkey]

/-- C1.  For every baseline list and every document map, `mergeCommandData` returns a list
of the same length as the baseline list, and at every position the record returned carries
the name of the baseline entry at that position (there is a record at a position exactly
when there is a baseline entry there). -/
theorem mergeCommandData_length_names (cmds : List BaselineRecord) (markdownDocs : DocMap) :
    (mergeCommandData cmds markdownDocs).length = cmds.length ∧
      ∀ i : Nat, ((mergeCommandData cmds markdownDocs)[i]?).map MergedRecord.name =
        (cmds[i]?).map BaselineRecord.name := by
  refine ⟨by simp [mergeCommandData_eq_map], fun i => ?_⟩
  rw [mergeCommandData_getElem?]
  cases cmds[i]? <;> simp [enhance_name]

/-! ## The end-to-end sample -/

/-- C2.  On the sample baseline and the sample document stored under the key `abs`,
`mergeCommandData` applied to the result of `parseMarkdown` yields exactly one record, with
description `Returns absolute value.`, summary `Returns absolute value`, the single syntax
row (`abs(x)`, `Absolute value of x`) and example `abs(-2)`. -/
theorem sample_end_to_end :
    (mergeCommandData absBaseline
        (parseAllMarkdownFiles [("abs".toList, absDocument)]).get).map
        (fun r => (r.name, r.description, r.summary, r.syntaxRows, r.exampleText)) =
      [("abs".toList, "Returns absolute value.".toList,
        some "Returns absolute value".toList,
        some [⟨"abs(x)".toList, "Absolute value of x".toList⟩], some "abs(-2)".toList)] :=
  rfl

/-! ## The merge: field by field -/

/-- C3, as stated, fails: with baseline description and extracted description both equal
to the placeholder `Lumerical command: abs`, the merged description equals the extracted
one although the extracted one is the placeholder. -/
theorem description_iff_fails :
    ¬ (∀ (c : BaselineRecord) (d : ParsedDoc),
        (enhance c (.document d)).description = d.description ↔
          (d.description ≠ [] ∧ d.description ≠ placeholder c.name)) := by
  intro h
  have h1 := (h { name := "abs".toList, description := "Lumerical command: abs".toList,
                  usage := "abs(x)".toList, category := none, other := [] }
                { title := [], description := "Lumerical command: abs".toList,
                  syntaxRows := [], exampleText := [], markdown := [], summary := [] }).mp
    (by decide)
  exact absurd h1 (by decide)

/-- C3, amended.  For a baseline entry `c` at position `i` matched to the extracted record
`d`, the merged description is `d.description` when that is non-empty and differs from the
placeholder, and `c.description` otherwise; so it equals `d.description` exactly when that
condition holds or the two descriptions were equal already.  Hence: (a) with the
placeholder as baseline description and a non-empty extracted one the result is the
extracted one, (b) with an empty extracted description the result is the baseline one,
(c) a non-empty baseline description never becomes empty. -/
theorem merged_description (cmds : List BaselineRecord) (markdownDocs : DocMap) (i : Nat)
    (c : BaselineRecord) (d : ParsedDoc) (hc : cmds[i]? = some c)
    (hd : markdownDocs c.name = DocValue.document d) :
    ∃ r, (mergeCommandData cmds markdownDocs)[i]? = some r ∧
      r.description =
        (if d.description ≠ [] ∧ d.description ≠ placeholder c.name then d.description
         else c.description) ∧
      (r.description = d.description ↔
        ((d.description ≠ [] ∧ d.description ≠ placeholder c.name) ∨
          c.description = d.description)) ∧
      (c.description = placeholder c.name → d.description ≠ [] →
        r.description = d.description) ∧
      (d.description = [] → r.description = c.description) ∧
      (c.description ≠ [] → r.description ≠ []) := by
  refine ⟨enhance c (.document d), by simp [mergeCommandData_getElem?, hc, hd], rfl, ?_, ?_,
    ?_, ?_⟩
  · by_cases hcond : d.description ≠ [] ∧ d.description ≠ placeholder c.name
    · simp [enhance_document, hcond]
    · simp only [enhance_document, if_neg hcond, hcond, false_or]
      simp
  · intro hp hne
    by_cases hcond : d.description ≠ [] ∧ d.description ≠ placeholder c.name
    · simp [enhance_document, hcond]
    · have : d.description = placeholder c.name := by
        by_contra hx
        exact hcond ⟨hne, hx⟩
      simp only [enhance_document, if_neg hcond]
      rw [hp, this]
  · intro he
    simp [enhance_document, he]
  · intro hne
    by_cases hcond : d.description ≠ [] ∧ d.description ≠ placeholder c.name
    · simp only [enhance_document, if_pos hcond]
      exact hcond.1
    · simp only [enhance_document, if_neg hcond]
      exact hne

/-- A witness for `merged_description`: the sample baseline with a document whose
description is `Returns absolute value.`. -/
theorem merged_description_witness :
    ∃ r, (mergeCommandData absBaseline
          (parseAllMarkdownFiles [("abs".toList, absDocument)]).get)[0]? = some r ∧
      r.description = "Returns absolute value.".toList := by
  obtain ⟨r, hr, hdesc, -⟩ := merged_description absBaseline
    (parseAllMarkdownFiles [("abs".toList, absDocument)]).get 0
    { name := "abs".toList, description := "Lumerical command: abs".toList,
      usage := "abs(x)".toList, category := none, other := [] }
    (parseMarkdown absDocument) (by decide) (by decide)
  exact ⟨r, hr, hdesc.trans (by decide)⟩

/-- The fallback branch.  For a baseline entry `c` at position `i` whose name reads a falsy
value (`undefined`, as when the object has no property of that name), the merged record
has the single syntax row (`c.usage`, `c.description`), an empty example, summary
`c.description`, and markdown exactly `### ` + name + two newlines + description + two
newlines + `**Usage:** ` + the usage between backticks. -/
theorem merged_fallback (cmds : List BaselineRecord) (markdownDocs : DocMap) (i : Nat)
    (c : BaselineRecord) (hc : cmds[i]? = some c)
    (hd : (markdownDocs c.name).truthy = false) :
    ∃ r, (mergeCommandData cmds markdownDocs)[i]? = some r ∧
      r.syntaxRows = some [{ syntaxText := c.usage, description := c.description }] ∧
      r.exampleText = some [] ∧
      r.summary = some c.description ∧
      r.markdown = some ("### ".toList ++ c.name ++ "\n\n".toList ++ c.description ++
        "\n\n**Usage:** `".toList ++ c.usage ++ "`".toList) :=
  ⟨enhance c (markdownDocs c.name), by simp [mergeCommandData_getElem?, hc],
    by rw [enhance_of_falsy c _ hd], by rw [enhance_of_falsy c _ hd],
    by rw [enhance_of_falsy c _ hd], by rw [enhance_of_falsy c _ hd]⟩

/-- A witness for `merged_fallback`: the sample baseline with the object built from no
file at all, in which `abs` reads `undefined`. -/
theorem merged_fallback_witness :
    (parseAllMarkdownFiles []).get "abs".toList = DocValue.undefined ∧
    ∃ r, (mergeCommandData absBaseline (parseAllMarkdownFiles []).get)[0]? = some r ∧
      r.syntaxRows = some [{ syntaxText := "abs(x)".toList,
                             description := "Lumerical command: abs".toList }] ∧
      r.exampleText = some [] ∧
      r.summary = some "Lumerical command: abs".toList ∧
      r.markdown =
        some "### abs\n\nLumerical command: abs\n\n**Usage:** `abs(x)`".toList :=
  ⟨by decide,
    merged_fallback absBaseline (parseAllMarkdownFiles []).get 0
      { name := "abs".toList, description := "Lumerical command: abs".toList,
        usage := "abs(x)".toList, category := none, other := [] } rfl (by decide)⟩

/-- C4, the failing input.  The baseline entry named `toString` is merged with the object
built from a directory that holds `abs.md` only.  No document is stored under `toString`;
the read `markdownDocs['toString']` gives the function that every plain object inherits,
which is truthy, so the branch for a matched document runs and markdown, summary, syntax
and example are `undefined`, none of them the value synthesised from the baseline entry.
The same entry merged with the same object read through own properties only gets the
synthesised values. -/
theorem fallback_lost_for_inherited_name :
    (parseAllMarkdownFiles [("abs".toList, absDocument)]).own "toString".toList = none ∧
    (parseAllMarkdownFiles [("abs".toList, absDocument)]).get "toString".toList =
      DocValue.builtin ∧
    mergeCommandData toStringBaseline
        (parseAllMarkdownFiles [("abs".toList, absDocument)]).get =
      [{ name := "toString".toList, description := "Converts to a string".toList,
         usage := "toString(x)".toList, category := none, other := [],
         markdown := none, summary := none, syntaxRows := none, exampleText := none }] ∧
    mergeCommandData toStringBaseline
        (fun key =>
          match (parseAllMarkdownFiles [("abs".toList, absDocument)]).own key with
          | some doc => DocValue.document doc
          | none => DocValue.undefined) =
      [{ name := "toString".toList, description := "Converts to a string".toList,
         usage := "toString(x)".toList, category := none, other := [],
         markdown := some
           "### toString\n\nConverts to a string\n\n**Usage:** `toString(x)`".toList,
         summary := some "Converts to a string".toList,
         syntaxRows := some [{ syntaxText := "toString(x)".toList,
                               description := "Converts to a string".toList }],
         exampleText := some [] }] := by
  decide

/-- C5.  For a baseline entry `c` at position `i` matched to the extracted record `d`, the
merged record's markdown, summary, syntax rows and example are those of `d`, whatever they
are (empty ones included). -/
theorem merged_from_document (cmds : List BaselineRecord) (markdownDocs : DocMap) (i : Nat)
    (c : BaselineRecord) (d : ParsedDoc) (hc : cmds[i]? = some c)
    (hd : markdownDocs c.name = DocValue.document d) :
    ∃ r, (mergeCommandData cmds markdownDocs)[i]? = some r ∧
      r.markdown = some d.markdown ∧ r.summary = some d.summary ∧
      r.syntaxRows = some d.syntaxRows ∧ r.exampleText = some d.exampleText :=
  ⟨enhance c (.document d), by simp [mergeCommandData_getElem?, hc, hd], rfl, rfl, rfl, rfl⟩

/-- A witness for `merged_from_document`: the sample baseline matched to a document all of
whose fields are empty. -/
theorem merged_from_document_witness :
    ∃ r, (mergeCommandData absBaseline
          (fun _ => DocValue.document ⟨[], [], [], [], [], []⟩))[0]? = some r ∧
      r.markdown = some [] ∧ r.summary = some [] ∧ r.syntaxRows = some [] ∧
      r.exampleText = some [] :=
  merged_from_document absBaseline (fun _ => DocValue.document ⟨[], [], [], [], [], []⟩) 0
    { name := "abs".toList, description := "Lumerical command: abs".toList,
      usage := "abs(x)".toList, category := none, other := [] } ⟨[], [], [], [], [], []⟩ rfl rfl

/-- C6.  For a baseline entry `c` at position `i`, whether or not a document matches its
name, the merged record has the name, usage, category and further fields of `c`; and the
array passed to `mergeCommandData` is the same when the loop has run as before. -/
theorem merged_frame (cmds : List BaselineRecord) (markdownDocs : DocMap) (i : Nat)
    (c : BaselineRecord) (hc : cmds[i]? = some c) :
    (∃ r, (mergeCommandData cmds markdownDocs)[i]? = some r ∧
      r.name = c.name ∧ r.usage = c.usage ∧ r.category = c.category ∧ r.other = c.other) ∧
    (mergeLoop cmds markdownDocs).existingCommands = cmds := by
  refine ⟨⟨enhance c (markdownDocs c.name), by simp [mergeCommandData_getElem?, hc], ?_⟩, ?_⟩
  · unfold enhance
    split <;> exact ⟨rfl, rfl, rfl, rfl⟩
  · simp [mergeLoop, foldl_mergeStep_existingCommands]

/-- A witness for `merged_frame`: a baseline entry with a category and one further field,
matched to a document. -/
theorem merged_frame_witness :
    (∃ r, (mergeCommandData categorisedBaseline
          (parseAllMarkdownFiles [("abs".toList, absDocument)]).get)[0]? = some r ∧
      r.name = "abs".toList ∧ r.usage = "abs(x)".toList ∧
      r.category = some "math".toList ∧ r.other = [("since".toList, "2020".toList)]) ∧
    (mergeLoop categorisedBaseline
        (parseAllMarkdownFiles [("abs".toList, absDocument)]).get).existingCommands =
      categorisedBaseline :=
  merged_frame categorisedBaseline
    (parseAllMarkdownFiles [("abs".toList, absDocument)]).get 0
    { name := "abs".toList, description := [], usage := "abs(x)".toList,
      category := some "math".toList, other := [("since".toList, "2020".toList)] } rfl

/-! ## The example scan -/

/-- C7, the failing input.  A document in the expected order without a syntax table
(heading, description, `**Example**`, a blank line, a fenced block of two code lines): the
example returned is empty, although the two code lines joined by a newline and trimmed are
not; the same document with a syntax table before the label gives those two lines. -/
theorem example_lost_without_table :
    (parseMarkdown exampleOnlyDocument).exampleText = [] ∧
    trim (join "\n".toList ["x = abs(-2);".toList, "?x;".toList]) =
      "x = abs(-2);\n?x;".toList ∧
    (parseMarkdown tableAndExampleDocument).exampleText = "x = abs(-2);\n?x;".toList := by
  decide

/-- C8, as stated, fails: in a document whose only fence line is the opening one (no
closing fence follows it), the example is the code after the fence, not the empty
string. -/
theorem unterminated_example_captured :
    (split '\n' unterminatedDocument).filter isFence = ["```".toList] ∧
    (parseMarkdown unterminatedDocument).exampleText = "abs(-2)".toList := by
  decide

/-- C8, amended.  For every document: if no line contains `**Example**`, or no line after
the first line containing `**Example**` is a fence, the example is empty.  Otherwise the
example is either empty or the lines that follow the first fence after a label line, up
to the next fence or, when no fence closes the block, up to the end of the input, joined
by newlines and trimmed. -/
theorem example_chain (content : Str) :
    ((∀ l ∈ split '\n' content, isExampleLabel l = false) →
      (parseMarkdown content).exampleText = []) ∧
    ((∀ f ∈ ((split '\n' content).dropWhile (fun l => !isExampleLabel l)).drop 1,
        isFence f = false) →
      (parseMarkdown content).exampleText = []) ∧
    ((parseMarkdown content).exampleText = [] ∨
      ∃ pre l mid f code post,
        split '\n' content = pre ++ l :: (mid ++ f :: (code ++ post)) ∧
        isExampleLabel l = true ∧ isFence f = true ∧
        (∀ x ∈ mid, isFence x = false) ∧ (∀ x ∈ code, isFence x = false) ∧
        (post = [] ∨ ∃ g post', post = g :: post' ∧ isFence g = true) ∧
        (parseMarkdown content).exampleText = trim (join "\n".toList code)) := by
  obtain ⟨cur, ⟨pre0, hpre0⟩, hex⟩ := exampleText_eq content
  have key : (parseMarkdown content).exampleText = [] ∨
      ∃ pre l mid f code post,
        split '\n' content = pre ++ l :: (mid ++ f :: (code ++ post)) ∧
        isExampleLabel l = true ∧ isFence f = true ∧
        (∀ x ∈ mid, isFence x = false) ∧ (∀ x ∈ code, isFence x = false) ∧
        (post = [] ∨ ∃ g post', post = g :: post' ∧ isFence g = true) ∧
        (parseMarkdown content).exampleText = trim (join "\n".toList code) := by
    rcases scanExample_spec cur with h | ⟨pre, l, mid, f, code, post, hcur, hl, hf, hm, hc, hp, hv⟩
    · exact Or.inl (hex.trans h)
    · exact Or.inr ⟨pre0 ++ pre, l, mid, f, code, post,
        by rw [← hpre0, hcur, List.append_assoc], hl, hf, hm, hc, hp, hex.trans hv⟩
  refine ⟨?_, ?_, key⟩
  · intro hno
    rcases key with h | ⟨pre, l, mid, f, code, post, hlines, hl, -⟩
    · exact h
    · have : isExampleLabel l = false := hno l (by rw [hlines]; simp)
      rw [hl] at this
      exact absurd this (by decide)
  · intro hno
    rcases key with h | ⟨pre, l, mid, f, code, post, hlines, hl, hf, -⟩
    · exact h
    · have hmem : f ∈ ((split '\n' content).dropWhile (fun l => !isExampleLabel l)).drop 1 := by
        rw [hlines]
        exact mem_drop_dropWhile _ pre l _ f (by simp [hl]) (by simp)
      have := hno f hmem
      rw [hf] at this
      exact absurd this (by decide)

/-- A witness for `example_chain`: a document with the label and no fence at all. -/
theorem example_chain_witness :
    (∀ f ∈ ((split '\n' labelOnlyDocument).dropWhile (fun l => !isExampleLabel l)).drop 1,
        isFence f = false) ∧
      (parseMarkdown labelOnlyDocument).exampleText = [] :=
  ⟨by decide, (example_chain labelOnlyDocument).2.1 (by decide)⟩

/-! ## The trailing-section cut -/

/-- C9, as stated, fails: in a text where `See Also` occurs at position 7, no variant
occurs before that, and `**See Also**` occurs further down, the cut is made at
`**See Also**`: the markdown returned is not the trimmed text before position 7, and it
contains the variant `See Also`. -/
theorem see_also_cut_not_lowest :
    indexOf (toLowerCase seeAlsoTwiceDocument) (toLowerCase "See Also".toList) = 7 ∧
    (∀ p ∈ seeAlsoPatterns,
      indexOf (toLowerCase seeAlsoTwiceDocument) (toLowerCase p) = -1 ∨
        7 ≤ indexOf (toLowerCase seeAlsoTwiceDocument) (toLowerCase p)) ∧
    (parseMarkdown seeAlsoTwiceDocument).markdown = "# abs\n\nSee Also the notes below.".toList ∧
    (parseMarkdown seeAlsoTwiceDocument).markdown ≠ trim (substring0 seeAlsoTwiceDocument 7) ∧
    includes (toLowerCase (parseMarkdown seeAlsoTwiceDocument).markdown)
      (toLowerCase "See Also".toList) = true := by
  decide

/-- C9, amended.  For every text in which some variant of the array occurs
case-insensitively and in which no unit U+0130 (the one unit whose lower-case form is
longer than itself) stands before the cut: let `p` be the first variant, in the order of the
array, that occurs in the lower-cased text, and `a` the part of the lower-cased text before
the first occurrence of `p`.  Then the first `a.length` units of the text are the part of
the text before the first case-insensitive occurrence of `p` (their lower-case form is
`a`, and what follows them begins with `p` in some letter case), the markdown returned is
that part, trimmed, and it does not contain `p` in any letter case. -/
theorem markdown_cut (content : Str)
    (h : ∃ p ∈ seeAlsoPatterns, includes (toLowerCase content) (toLowerCase p) = true)
    (hno : ∀ c ∈ substring0 content (findSeeAlsoIndex content seeAlsoPatterns),
      c.toNat ≠ 0x130) :
    ∃ pre p post a b, seeAlsoPatterns = pre ++ p :: post ∧
      (∀ q ∈ pre, includes (toLowerCase content) (toLowerCase q) = false) ∧
      toLowerCase content = a ++ toLowerCase p ++ b ∧
      (∀ a' b', toLowerCase content = a' ++ toLowerCase p ++ b' → a.length ≤ a'.length) ∧
      toLowerCase (content.take a.length) = a ∧
      toLowerCase (content.drop a.length) = toLowerCase p ++ b ∧
      (parseMarkdown content).markdown = trim (content.take a.length) ∧
      includes (toLowerCase (parseMarkdown content).markdown) (toLowerCase p) = false := by
  have h' : ∃ p ∈ seeAlsoPatterns, toLowerCase p <:+: toLowerCase content := by
    obtain ⟨p, hp, hin⟩ := h
    exact ⟨p, hp, (includes_iff _ _).1 hin⟩
  obtain ⟨pre, p, post, hps, hpre, hp, hidx⟩ := findSeeAlsoIndex_first content seeAlsoPatterns h'
  obtain ⟨a, b, hab, hk, hmin⟩ := indexOfFrom_spec (toLowerCase p) (toLowerCase content) 0 hp
  have hi : findSeeAlsoIndex content seeAlsoPatterns = ((a.length : Nat) : Int) := by
    rw [hidx, indexOf, hk]
    simp
  have hmd : (parseMarkdown content).markdown = trim (content.take a.length) := by
    have hne : findSeeAlsoIndex content seeAlsoPatterns ≠ -1 := by
      rw [hi]
      omega
    have hne' : ((a.length : Nat) : Int) ≠ -1 := by omega
    simp only [parseMarkdown, substring0, hi, Int.toNat_ofNat, if_pos hne']
  have hno' : ∀ c ∈ content.take a.length, c.toNat ≠ 0x130 := by
    intro c hc
    apply hno c
    rw [hi]
    simpa [substring0] using hc
  have htake : toLowerCase (content.take a.length) = a := by
    rw [toLowerCase_take_of_head content a.length hno', hab]
    simp
  have hdrop : toLowerCase (content.drop a.length) = toLowerCase p ++ b := by
    have hsplit : toLowerCase content =
        toLowerCase (content.take a.length) ++ toLowerCase (content.drop a.length) := by
      rw [← toLowerCase_append, List.take_append_drop]
    rw [htake, hab, List.append_assoc] at hsplit
    exact (List.append_cancel_left hsplit).symm
  refine ⟨pre, p, post, a, b, hps, ?_, hab, hmin, htake, hdrop, hmd, ?_⟩
  · intro q hq
    have := hpre q hq
    cases hinc : includes (toLowerCase content) (toLowerCase q) with
    | false => rfl
    | true => exact absurd ((includes_iff _ _).1 hinc) this
  · cases hinc : includes (toLowerCase (parseMarkdown content).markdown) (toLowerCase p) with
    | false => rfl
    | true =>
      exfalso
      have h1 : toLowerCase p <:+: toLowerCase (trim (content.take a.length)) := by
        rw [← hmd]
        exact (includes_iff _ _).1 hinc
      have h2 : toLowerCase (trim (content.take a.length)) <:+: a := by
        have := toLowerCase_occurs (trim_occurs (content.take a.length))
        rwa [htake] at this
      obtain ⟨x, y, hxy⟩ := h1.trans h2
      have hlen : a.length ≤ x.length :=
        hmin x (y ++ toLowerCase p ++ b) (by rw [hab, ← hxy]; simp)
      have hpne : toLowerCase p ≠ [] :=
        toLowerCase_pattern_ne_nil p (by rw [hps]; simp)
      have hpl : 0 < (toLowerCase p).length := List.length_pos.2 hpne
      have hal : a.length = x.length + (toLowerCase p).length + y.length := by
        rw [← hxy]
        simp [Nat.add_assoc]
      omega

/-- A witness for `markdown_cut`: a document that ends with a `**See Also**` section. -/
theorem markdown_cut_witness :
    (∃ p ∈ seeAlsoPatterns, includes (toLowerCase seeAlsoDocument) (toLowerCase p) = true) ∧
    (∀ c ∈ substring0 seeAlsoDocument (findSeeAlsoIndex seeAlsoDocument seeAlsoPatterns),
      c.toNat ≠ 0x130) ∧
    ∃ pre p post a b, seeAlsoPatterns = pre ++ p :: post ∧
      (∀ q ∈ pre, includes (toLowerCase seeAlsoDocument) (toLowerCase q) = false) ∧
      toLowerCase seeAlsoDocument = a ++ toLowerCase p ++ b ∧
      (∀ a' b', toLowerCase seeAlsoDocument = a' ++ toLowerCase p ++ b' →
        a.length ≤ a'.length) ∧
      toLowerCase (seeAlsoDocument.take a.length) = a ∧
      toLowerCase (seeAlsoDocument.drop a.length) = toLowerCase p ++ b ∧
      (parseMarkdown seeAlsoDocument).markdown = trim (seeAlsoDocument.take a.length) ∧
      includes (toLowerCase (parseMarkdown seeAlsoDocument).markdown) (toLowerCase p) =
        false :=
  ⟨⟨"**See Also**".toList, by decide, by decide⟩, by decide,
    markdown_cut seeAlsoDocument ⟨"**See Also**".toList, by decide, by decide⟩ (by decide)⟩

/-- C10.  For every text whose lower-case form does not contain `see also`, the markdown
returned by `parseMarkdown` is the text itself. -/
theorem markdown_unchanged_without_see_also (content : Str)
    (h : includes (toLowerCase content) "see also".toList = false) :
    (parseMarkdown content).markdown = content := by
  have hno : ¬ "see also".toList <:+: toLowerCase content := by
    intro hx
    rw [(includes_iff _ _).2 hx] at h
    exact absurd h (by decide)
  have hidx : findSeeAlsoIndex content seeAlsoPatterns = -1 := by
    rw [findSeeAlsoIndex_eq_neg_one_iff]
    intro p hp hx
    exact hno ((see_also_infix_of_pattern p hp).trans hx)
  simp [parseMarkdown, hidx]

/-- A witness for `markdown_unchanged_without_see_also`: a text with `See: also`. -/
theorem markdown_unchanged_without_see_also_witness :
    includes (toLowerCase seeColonAlsoDocument) "see also".toList = false ∧
      (parseMarkdown seeColonAlsoDocument).markdown =
        seeColonAlsoDocument :=
  ⟨by decide, markdown_unchanged_without_see_also _ (by decide)⟩

/-! ## The summary -/

/-- The first piece of `s.split(sep)` is what comes before the first separator. -/
theorem splitAux_fst (sep : Char) (s : Str) :
    (splitAux sep s).1 = s.takeWhile (fun c => c != sep) := by
  induction s with
  | nil => rfl
  | cons c cs ih =>
    by_cases h : c = sep
    · simp [splitAux, h]
    · simp [splitAux, h, ih, List.takeWhile_cons]

/-- The part of a string before the first occurrence of a unit is determined by the two
facts that it does not contain the unit and that the string is this part alone or this
part, the unit, and a rest. -/
theorem takeWhile_ne_eq (sep : Char) (d s : Str) (hs : sep ∉ s)
    (hd : d = s ∨ ∃ rest, d = s ++ sep :: rest) :
    d.takeWhile (fun c => c != sep) = s := by
  have hall : ∀ c ∈ s, (fun c => c != sep) c = true := by
    intro c hc
    have : c ≠ sep := fun h => hs (h ▸ hc)
    simpa using this
  rcases hd with rfl | ⟨rest, rfl⟩
  · exact List.takeWhile_eq_self_iff.2 hall
  · exact takeWhile_run _ s sep rest hall (by simp)

/-- The summary computed by `parseMarkdown` is `makeSummary` of its description and
title. -/
theorem summary_eq (content : Str) :
    (parseMarkdown content).summary =
      makeSummary (parseMarkdown content).description (parseMarkdown content).title := rfl

/-- The summary made from a non-empty description, in terms of the part of the description
before its first period. -/
theorem makeSummary_of_ne_nil (description title : Str) (h : description ≠ []) :
    makeSummary description title =
      if (description.takeWhile (fun c => c != '.')).length > 100 then
        (description.takeWhile (fun c => c != '.')).take 100 ++ "...".toList
      else description.takeWhile (fun c => c != '.') := by
  simp only [makeSummary, if_pos h, split, List.headD_cons, splitAux_fst, substring0]
  rfl

/-- C11, as stated, fails: for a text with title `abs` and a description that starts with
a period, the title and the description are non-empty and the summary is empty. -/
theorem summary_empty_with_title_and_description :
    (parseMarkdown leadingPeriodDocument).title = "abs".toList ∧
    (parseMarkdown leadingPeriodDocument).description = ".5 is returned for a half.".toList ∧
    (parseMarkdown leadingPeriodDocument).summary = [] := by
  decide

/-- C11, amended.  For every text, the summary is empty exactly when the description is
empty and the title is empty, or the description starts with a period.  So the summary is
non-empty whenever the description is non-empty and does not start with a period, and
whenever the description is empty and the title is not. -/
theorem summary_eq_nil_iff (content : Str) :
    (parseMarkdown content).summary = [] ↔
      ((parseMarkdown content).description = [] ∧ (parseMarkdown content).title = []) ∨
        (parseMarkdown content).description.head? = some '.' := by
  rw [summary_eq]
  generalize (parseMarkdown content).description = d
  generalize (parseMarkdown content).title = t
  cases d with
  | nil => simp [makeSummary]
  | cons c cs =>
    rw [makeSummary_of_ne_nil _ _ (by simp)]
    by_cases hc : c = '.'
    · subst hc
      simp [List.takeWhile_cons]
    · have htw : (c :: cs).takeWhile (fun c => c != '.') =
          c :: cs.takeWhile (fun c => c != '.') := by
        simp [List.takeWhile_cons, hc]
      rw [htw]
      split_ifs <;> simp [hc]

/-- C12.  For every text: if the description is empty the summary is the title; otherwise,
with `s` the part of the description before its first period (the whole description if it
has no period), the summary is `s` when `s` has at most 100 units, and the first 100 units
of `s` followed by `...`, 103 units in all, when `s` has more. -/
theorem summary_derivation (content : Str) :
    ((parseMarkdown content).description = [] →
      (parseMarkdown content).summary = (parseMarkdown content).title) ∧
    (∀ s : Str, (parseMarkdown content).description ≠ [] → '.' ∉ s →
      ((parseMarkdown content).description = s ∨
        ∃ rest, (parseMarkdown content).description = s ++ '.' :: rest) →
      (s.length ≤ 100 → (parseMarkdown content).summary = s) ∧
      (100 < s.length →
        (parseMarkdown content).summary = s.take 100 ++ "...".toList ∧
        (parseMarkdown content).summary.length = 103)) := by
  rw [summary_eq]
  generalize (parseMarkdown content).description = d
  generalize (parseMarkdown content).title = t
  refine ⟨fun h => by simp [makeSummary, h], fun s hne hs hd => ?_⟩
  rw [makeSummary_of_ne_nil _ _ hne, takeWhile_ne_eq '.' d s hs hd]
  constructor
  · intro hle
    rw [if_neg (by omega)]
  · intro hlt
    rw [if_pos (by omega)]
    refine ⟨rfl, ?_⟩
    simp [List.length_take]
    omega

/-! ## The title -/

/-- The title in a text without a heading line. -/
theorem scanTitle_none (lines : List Str)
    (h : ∀ l ∈ lines, startsWith (trim l) "#".toList = false) :
    scanTitle lines = ([], []) := by
  have hnil : lines.dropWhile (fun l => !startsWith (trim l) "#".toList) = [] := by
    rw [List.dropWhile_eq_nil_iff]
    intro l hl
    rw [h l hl]
    rfl
  unfold scanTitle
  rw [hnil]

/-- The title scan at the first heading line. -/
theorem scanTitle_first (pre : List Str) (l : Str) (post : List Str)
    (hpre : ∀ x ∈ pre, startsWith (trim x) "#".toList = false)
    (hl : startsWith (trim l) "#".toList = true) :
    scanTitle (pre ++ l :: post) = (replaceHeadingMarker (trim l), post) := by
  unfold scanTitle
  rw [dropWhile_run _ pre l post (fun x hx => by rw [hpre x hx]; rfl) (by rw [hl]; rfl)]
  simp only [if_pos hl]

/-- The title found by the scan is empty or a trimmed line without its heading marker. -/
theorem scanTitle_fst_cases (lines : List Str) :
    (scanTitle lines).1 = [] ∨ ∃ l, (scanTitle lines).1 = replaceHeadingMarker (trim l) := by
  unfold scanTitle
  cases lines.dropWhile (fun l => !startsWith (trim l) "#".toList) with
  | nil => exact Or.inl rfl
  | cons l rest =>
    by_cases hl : startsWith (trim l) "#".toList = true
    · exact Or.inr ⟨l, by simp only [if_pos hl]⟩
    · exact Or.inl (by simp only [if_neg hl])

/-- A trimmed string does not end with white space. -/
theorem trim_getLast (s : Str) (c : Char) (h : (trim s).getLast? = some c) :
    isWhiteSpace c = false := by
  unfold trim trimEnd at h
  rw [List.getLast?_reverse] at h
  have := List.head?_dropWhile_not isWhiteSpace (trimStart s).reverse
  rw [h] at this
  simpa using this

/-- The last unit of a non-empty suffix is the last unit of the whole. -/
theorem getLast_of_suffix {α : Type} (t s : List α) (c : α) (hts : t <:+ s)
    (h : t.getLast? = some c) : s.getLast? = some c := by
  obtain ⟨p, rfl⟩ := hts
  cases t with
  | nil => simp at h
  | cons a t' =>
    rw [List.getLast?_append_of_ne_nil p (by simp)]
    exact h

/-- The heading marker removed from a trimmed line: the result starts with no white space,
and ends with none. -/
theorem replaceHeadingMarker_trim (l : Str) :
    (∀ c, (replaceHeadingMarker (trim l)).head? = some c → isWhiteSpace c = false) ∧
    (∀ c, (replaceHeadingMarker (trim l)).getLast? = some c → isWhiteSpace c = false) := by
  by_cases hs : startsWith (trim l) ['#'] = true
  · have heq : replaceHeadingMarker (trim l) =
        ((trim l).dropWhile (fun c => c == '#')).dropWhile isWhiteSpace := by
      simp only [replaceHeadingMarker, if_pos hs]
    rw [heq]
    constructor
    · intro c hc
      have := List.head?_dropWhile_not isWhiteSpace ((trim l).dropWhile (fun c => c == '#'))
      rw [hc] at this
      simpa using this
    · intro c hc
      exact trim_getLast l c (getLast_of_suffix _ _ c
        ((List.dropWhile_suffix _).trans (List.dropWhile_suffix _)) hc)
  · have heq : replaceHeadingMarker (trim l) = trim l := by
      simp only [replaceHeadingMarker, if_neg hs]
    rw [heq]
    constructor
    · intro c hc
      have h1 : trim l <+: trimStart l := by
        unfold trim trimEnd
        have := List.dropWhile_suffix (l := (trimStart l).reverse) isWhiteSpace
        simpa using List.reverse_prefix.2 this
      have h2 : (trimStart l).head? = some c := by
        obtain ⟨t, ht⟩ := h1
        cases htl : trim l with
        | nil => rw [htl] at hc; simp at hc
        | cons a r =>
          rw [htl] at hc ht
          rw [← ht]
          simpa using hc
      have := List.head?_dropWhile_not isWhiteSpace l
      unfold trimStart at h2
      rw [h2] at this
      simpa using this
    · intro c hc
      exact trim_getLast l c hc

/-- C14, as stated, fails: the heading line `# #include` gives the title `#include`, which
begins with `#`. -/
theorem title_begins_with_marker :
    (parseMarkdown doubleMarkerDocument).title = "#include".toList ∧
    (parseMarkdown doubleMarkerDocument).title.head? = some '#' := by
  decide

/-- C14, amended.  For every text: the title is empty when no line has a trimmed form
starting with `#`; otherwise it is the first such line, trimmed, without its leading run
of `#` and without the white space that follows that run.  When the first non-blank line,
trimmed, is `# ` followed by a text that does not start with white space (`# Foo`), the
title is that text (`Foo`).  A title never begins with white space and never ends with
white space. -/
theorem title_extraction (content : Str) :
    ((∀ l ∈ split '\n' content, startsWith (trim l) "#".toList = false) →
      (parseMarkdown content).title = []) ∧
    (∀ pre l post, split '\n' content = pre ++ l :: post →
      (∀ x ∈ pre, startsWith (trim x) "#".toList = false) →
      startsWith (trim l) "#".toList = true →
      (parseMarkdown content).title =
        ((trim l).dropWhile (fun c => c == '#')).dropWhile isWhiteSpace) ∧
    (∀ pre l post t, split '\n' content = pre ++ l :: post →
      (∀ x ∈ pre, trim x = []) → trim l = '#' :: ' ' :: t →
      (∀ c, t.head? = some c → isWhiteSpace c = false) →
      (parseMarkdown content).title = t) ∧
    (∀ c, (parseMarkdown content).title.head? = some c → isWhiteSpace c = false) ∧
    (∀ c, (parseMarkdown content).title.getLast? = some c → isWhiteSpace c = false) := by
  have htitle : (parseMarkdown content).title = (scanTitle (split '\n' content)).1 := rfl
  have hfirst : ∀ pre l post, split '\n' content = pre ++ l :: post →
      (∀ x ∈ pre, startsWith (trim x) "#".toList = false) →
      startsWith (trim l) "#".toList = true →
      (parseMarkdown content).title =
        ((trim l).dropWhile (fun c => c == '#')).dropWhile isWhiteSpace := by
    intro pre l post hlines hpre hl
    rw [htitle, hlines, scanTitle_first pre l post hpre hl]
    simp only [replaceHeadingMarker]
    rw [if_pos (show startsWith (trim l) ['#'] = true from hl)]
  refine ⟨?_, hfirst, ?_, ?_, ?_⟩
  · intro h
    rw [htitle, scanTitle_none _ h]
  · intro pre l post t hlines hpre hl ht
    rw [hfirst pre l post hlines (fun x hx => by rw [hpre x hx]; rfl) (by rw [hl]; rfl), hl]
    have h1 : ('#' :: ' ' :: t).dropWhile (fun c => c == '#') = ' ' :: t := by
      simp [List.dropWhile_cons]
    rw [h1]
    have h2 : (' ' :: t).dropWhile isWhiteSpace = t.dropWhile isWhiteSpace := by
      rw [List.dropWhile_cons_of_pos (by decide)]
    rw [h2]
    cases t with
    | nil => rfl
    | cons a r => exact List.dropWhile_cons_of_neg (by simp [ht a rfl])
  · intro c hc
    rw [htitle] at hc
    rcases scanTitle_fst_cases (split '\n' content) with h | ⟨l, h⟩
    · rw [h] at hc
      simp at hc
    · rw [h] at hc
      exact (replaceHeadingMarker_trim l).1 c hc
  · intro c hc
    rw [htitle] at hc
    rcases scanTitle_fst_cases (split '\n' content) with h | ⟨l, h⟩
    · rw [h] at hc
      simp at hc
    · rw [h] at hc
      exact (replaceHeadingMarker_trim l).2 c hc

/-! ## The description -/

/-- A line that does not end the description is not empty. -/
theorem not_blank_of_not_end (l : Str) (h : isDescriptionEnd (trim l) = false) :
    (trim l == []) = false := by
  cases ht : trim l with
  | nil => rw [ht] at h; exact absurd h (by decide)
  | cons c cs => rfl

/-- The description scan from a cursor at blank lines, then lines that do not end the
description, then the end of the input or a line that ends it. -/
theorem scanDescription_block (blanks desc rest : List Str)
    (hblanks : ∀ l ∈ blanks, trim l = [])
    (hdesc : ∀ l ∈ desc, isDescriptionEnd (trim l) = false) (hne : desc ≠ [])
    (hrest : rest = [] ∨ ∃ stop rest', rest = stop :: rest' ∧
      isDescriptionEnd (trim stop) = true) :
    scanDescription (skipEmptyLines (blanks ++ (desc ++ rest))) = (desc.map trim, rest) := by
  obtain ⟨d0, desc', rfl⟩ := List.exists_cons_of_ne_nil hne
  have hskip : skipEmptyLines (blanks ++ (d0 :: desc' ++ rest)) = d0 :: desc' ++ rest := by
    unfold skipEmptyLines
    rw [List.cons_append]
    exact dropWhile_run _ blanks d0 _ (fun x hx => by simp [hblanks x hx])
      (not_blank_of_not_end d0 (hdesc d0 (by simp)))
  have hall : ∀ x ∈ d0 :: desc', (fun l => !isDescriptionEnd (trim l)) x = true := by
    intro x hx
    simp [hdesc x hx]
  rw [hskip]
  unfold scanDescription
  rcases hrest with rfl | ⟨stop, rest', rfl, hstop⟩
  · rw [List.append_nil, List.takeWhile_eq_self_iff.2 hall, List.dropWhile_eq_nil_iff.2 hall]
  · rw [takeWhile_run _ (d0 :: desc') stop rest' hall (by simp [hstop]),
      dropWhile_run _ (d0 :: desc') stop rest' hall (by simp [hstop])]

/-- C15.  Let the lines of a text be: lines without a heading marker, the heading line,
blank lines, then `k ≥ 1` lines whose trimmed forms are not empty and do not start with
`|`, three backticks or `**Example**`, and then the end of the input or a line whose
trimmed form is empty or starts with one of those markers.  The description is those `k`
lines, each trimmed, joined by single spaces. -/
theorem description_extraction (content : Str) (pre : List Str) (heading : Str)
    (blanks desc rest : List Str)
    (hlines : split '\n' content = pre ++ heading :: (blanks ++ (desc ++ rest)))
    (hpre : ∀ l ∈ pre, startsWith (trim l) "#".toList = false)
    (hheading : startsWith (trim heading) "#".toList = true)
    (hblanks : ∀ l ∈ blanks, trim l = [])
    (hdesc : ∀ l ∈ desc, trim l ≠ [] ∧ startsWith (trim l) "|".toList = false ∧
      startsWith (trim l) "```".toList = false ∧
      startsWith (trim l) "**Example**".toList = false)
    (hne : desc ≠ [])
    (hrest : rest = [] ∨ ∃ stop rest', rest = stop :: rest' ∧
      (trim stop = [] ∨ startsWith (trim stop) "|".toList = true ∨
        startsWith (trim stop) "```".toList = true ∨
        startsWith (trim stop) "**Example**".toList = true)) :
    (parseMarkdown content).description = join " ".toList (desc.map trim) := by
  have hd : (parseMarkdown content).description =
      join " ".toList (scanDescription (skipEmptyLines (scanTitle (split '\n' content)).2)).1 :=
    rfl
  have hdesc' : ∀ l ∈ desc, isDescriptionEnd (trim l) = false := by
    intro l hl
    obtain ⟨h1, h2, h3, h4⟩ := hdesc l hl
    unfold isDescriptionEnd
    rw [h2, h3, h4]
    simp [h1]
  have hrest' : rest = [] ∨ ∃ stop rest', rest = stop :: rest' ∧
      isDescriptionEnd (trim stop) = true := by
    rcases hrest with h | ⟨stop, rest', h, hs⟩
    · exact Or.inl h
    · refine Or.inr ⟨stop, rest', h, ?_⟩
      unfold isDescriptionEnd
      rcases hs with h1 | h1 | h1 | h1
      · simp [h1]
      · rw [h1]; simp
      · rw [h1]; simp
      · rw [h1]; simp
  rw [hd, hlines, scanTitle_first pre heading _ hpre hheading,
    scanDescription_block blanks desc rest hblanks hdesc' hne hrest']

/-- A witness for `description_extraction`: a title, two prose lines and then a table
line give the two prose lines, trimmed, joined by one space. -/
theorem description_extraction_witness :
    (parseMarkdown twoProseLinesDocument).description =
      "Returns the absolute value. Works on matrices.".toList :=
  (description_extraction twoProseLinesDocument [] "# abs".toList []
    ["  Returns the absolute value.  ".toList, "Works on matrices.".toList]
    ["| Syntax | Description |".toList] (by decide) (by decide) (by decide) (by decide)
    (by decide) (by decide)
    (Or.inr ⟨"| Syntax | Description |".toList, [], rfl, Or.inr (Or.inl (by decide))⟩)).trans
    (by decide)

/-! ## The syntax table -/

/-- The loop body of the script and the row in the specification's words agree. -/
theorem parseRow_eq_rowOfLine (line : Str) : parseRow line = rowOfLine line := by
  unfold parseRow rowOfLine nonEmptyCells
  cases h : ((split '|' line).map trim).filter (fun cell => cell != []) with
  | nil => rfl
  | cons c0 rest =>
    cases rest with
    | nil => rfl
    | cons c1 rest' => simp

/-- The syntax rows found from a cursor in which the first maximal run of table lines is
`T`: the rows of the lines of `T` after the first two. -/
theorem scanTable_run (pre T post : List Str)
    (hpre : ∀ l ∈ pre, isTableLine l = false) (hT : ∀ l ∈ T, isTableLine l = true)
    (hpost : post = [] ∨ ∃ x post', post = x :: post' ∧ isTableLine x = false)
    (hnil : T = [] → post = []) :
    (scanTable (pre ++ (T ++ post))).1 = (T.drop 2).filterMap parseRow := by
  cases T with
  | nil =>
    rw [hnil rfl]
    have hd : (pre ++ ([] ++ [])).dropWhile (fun l => !isTableLine l) = [] := by
      rw [List.dropWhile_eq_nil_iff]
      intro l hl
      have : l ∈ pre := by simpa using hl
      simp [hpre l this]
    unfold scanTable
    rw [hd]
    rfl
  | cons t0 T' =>
    have ht0 : isTableLine t0 = true := hT t0 (by simp)
    have hd : (pre ++ (t0 :: T' ++ post)).dropWhile (fun l => !isTableLine l) =
        t0 :: (T' ++ post) := by
      rw [List.cons_append]
      exact dropWhile_run _ pre t0 _ (fun x hx => by simp [hpre x hx]) (by simp [ht0])
    have htw : (t0 :: (T' ++ post)).takeWhile isTableLine = t0 :: T' := by
      rw [← List.cons_append]
      rcases hpost with rfl | ⟨x, post', rfl, hx⟩
      · rw [List.append_nil]
        exact List.takeWhile_eq_self_iff.2 hT
      · exact takeWhile_run _ (t0 :: T') x post' hT hx
    unfold scanTable
    rw [hd]
    simp only [ht0, if_true, htw]
    by_cases hlen : (t0 :: T').length ≥ 2
    · rw [if_pos hlen]
    · rw [if_neg hlen]
      have : (t0 :: T').drop 2 = [] := List.drop_eq_nil_of_le (by omega)
      rw [this]
      rfl

/-- C13.  For every text, let `T` be the first maximal run of table lines (lines whose
trimmed form starts with `|`) at or after the line where the description scan stopped
(`T` is empty when there is no table line there).  The syntax list is, in the order of the
lines, the rows of the lines of `T` after its first two that have at least two non-empty
cells; it is empty when `T` has fewer than three lines; a line with fewer than two
non-empty cells gives no row and leaves the other rows as they are; and a header, a
separator and two lines with two non-empty cells each give exactly two rows. -/
theorem syntax_rows (content : Str) (pre T post : List Str)
    (hcur : cursorAfterDescription content = pre ++ (T ++ post))
    (hpre : ∀ l ∈ pre, startsWith (trim l) "|".toList = false)
    (hT : ∀ l ∈ T, startsWith (trim l) "|".toList = true)
    (hpost : post = [] ∨ ∃ x post', post = x :: post' ∧
      startsWith (trim x) "|".toList = false)
    (hnil : T = [] → post = []) :
    (parseMarkdown content).syntaxRows = (T.drop 2).filterMap rowOfLine ∧
    (T.length < 3 → (parseMarkdown content).syntaxRows = []) ∧
    (∀ header separator a bad b, T = header :: separator :: (a ++ bad :: b) →
      (nonEmptyCells bad).length < 2 →
      (parseMarkdown content).syntaxRows = (a ++ b).filterMap rowOfLine) ∧
    (∀ header separator r1 r2, T = [header, separator, r1, r2] →
      2 ≤ (nonEmptyCells r1).length → 2 ≤ (nonEmptyCells r2).length →
      ∃ x1 x2, rowOfLine r1 = some x1 ∧ rowOfLine r2 = some x2 ∧
        (parseMarkdown content).syntaxRows = [x1, x2]) := by
  have hrows : (parseMarkdown content).syntaxRows = (T.drop 2).filterMap rowOfLine := by
    have h0 : (parseMarkdown content).syntaxRows =
        (scanTable (cursorAfterDescription content)).1 := rfl
    rw [h0, hcur, scanTable_run pre T post hpre hT hpost hnil]
    congr 1
    funext line
    exact parseRow_eq_rowOfLine line
  refine ⟨hrows, ?_, ?_, ?_⟩
  · intro hlen
    rw [hrows]
    match T, hlen with
    | [], _ => rfl
    | [_], _ => rfl
    | [_, _], _ => rfl
  · intro header separator a bad b hT' hbad
    rw [hrows, hT']
    have : rowOfLine bad = none := by
      unfold rowOfLine
      rw [if_neg (by omega)]
    simp [List.filterMap_append, List.filterMap_cons, this]
  · intro header separator r1 r2 hT' h1 h2
    refine ⟨_, _, by unfold rowOfLine; rw [if_pos h1], by unfold rowOfLine; rw [if_pos h2], ?_⟩
    rw [hrows, hT']
    simp [List.filterMap_cons, rowOfLine, h1, h2]

/-- A witness for `syntax_rows`: the table of `tableDocument` gives two rows, the bold
markers removed and the line with one cell left out. -/
theorem syntax_rows_witness :
    (parseMarkdown tableDocument).syntaxRows =
      [{ syntaxText := "abs(x)".toList, description := "Absolute value of x".toList },
       { syntaxText := "abs(A)".toList, description := "For a matrix".toList }] :=
  ((syntax_rows tableDocument [[]]
    ["| Syntax | Description |".toList, "|---|---|".toList,
     "| **abs(x)** | Absolute **value** of x |".toList, "| only one cell |".toList,
     "| abs(A) | For a matrix |".toList]
    [[], "Notes.".toList] (by decide) (by decide) (by decide)
    (Or.inr ⟨[], ["Notes.".toList], rfl, by decide⟩) (by decide)).1).trans (by decide)

/-! ## The scanning loops with a line index -/

/-- A loop given as many iterations as there are lines left ends, at the first line that
fails the test, having pushed the lines before it. -/
theorem whileLoop_drop (lines : List Str) (test : Str → Bool) (fuel i : Nat)
    (pushed : List Str) (h : lines.length ≤ i + fuel) :
    whileLoop lines test fuel i pushed =
      some (i + ((lines.drop i).takeWhile test).length,
        pushed ++ (lines.drop i).takeWhile test) := by
  induction fuel generalizing i pushed with
  | zero =>
    have hnone : lines[i]? = none := List.getElem?_eq_none (by omega)
    have hdrop : lines.drop i = [] := List.drop_eq_nil_of_le (by omega)
    simp [whileLoop, hnone, hdrop]
  | succ fuel ih =>
    cases hget : lines[i]? with
    | none =>
      have hdrop : lines.drop i = [] :=
        List.drop_eq_nil_of_le (by simpa using List.getElem?_eq_none_iff.1 hget)
      simp [whileLoop, hget, hdrop]
    | some l =>
      have hlt : i < lines.length := (List.getElem?_eq_some_iff.1 hget).1
      have hl : lines[i] = l := (List.getElem?_eq_some_iff.1 hget).2
      have hdrop : lines.drop i = l :: lines.drop (i + 1) := by
        rw [← hl]
        exact List.drop_eq_getElem_cons hlt
      by_cases ht : test l = true
      · simp only [whileLoop, hget, ht, if_true]
        rw [ih (i + 1) (pushed ++ [l]) (by omega), hdrop, List.takeWhile_cons_of_pos ht]
        simp [Nat.add_assoc, Nat.add_comm 1]
      · simp [whileLoop, hget, ht, hdrop, List.takeWhile_cons_of_neg ht]

/-- A cursor is what remains of the lines from its index on. -/
theorem drop_cursorIndex (lines cur : List Str) (h : cur <:+ lines) :
    lines.drop (cursorIndex lines cur) = cur := by
  obtain ⟨p, rfl⟩ := h
  simp [cursorIndex]

/-- The line at the index of a cursor is the first line of the cursor. -/
theorem getElem?_cursorIndex (lines cur : List Str) (h : cur <:+ lines) :
    lines[cursorIndex lines cur]? = cur.head? := by
  have := drop_cursorIndex lines cur h
  rw [← List.head?_drop, this]

/-- Moving the index past the first line of a cursor gives the index of the rest. -/
theorem cursorIndex_succ (lines : List Str) (l : Str) (rest : List Str)
    (h : l :: rest <:+ lines) :
    cursorIndex lines (l :: rest) + 1 = cursorIndex lines rest := by
  obtain ⟨p, rfl⟩ := h
  simp [cursorIndex]
  omega

/-- A loop started at the index of a cursor, with at least as many iterations allowed as
there are lines, ends at the index of the cursor left by `dropWhile` and has pushed the
lines taken by `takeWhile`. -/
theorem whileLoop_cursor (lines cur : List Str) (test : Str → Bool) (fuel : Nat)
    (pushed : List Str) (hcur : cur <:+ lines) (hfuel : lines.length ≤ fuel) :
    whileLoop lines test fuel (cursorIndex lines cur) pushed =
      some (cursorIndex lines (cur.dropWhile test), pushed ++ cur.takeWhile test) := by
  rw [whileLoop_drop lines test fuel _ pushed (by omega), drop_cursorIndex lines cur hcur]
  have hlen : cur.length = (cur.takeWhile test).length + (cur.dropWhile test).length := by
    rw [← List.length_append, List.takeWhile_append_dropWhile]
  have hle : cur.length ≤ lines.length := hcur.length_le
  have : cursorIndex lines cur + (cur.takeWhile test).length =
      cursorIndex lines (cur.dropWhile test) := by
    unfold cursorIndex
    omega
  rw [this]

/-- The title scan with the index agrees with the title scan on the cursor. -/
theorem titleLoop_eq (lines : List Str) (fuel : Nat) (hfuel : lines.length ≤ fuel) :
    titleLoop lines fuel =
      some ((scanTitle lines).1, cursorIndex lines (scanTitle lines).2) := by
  have h0 : (0 : Nat) = cursorIndex lines lines := by simp [cursorIndex]
  have hs := List.dropWhile_suffix (l := lines) (fun l => !startsWith (trim l) "#".toList)
  unfold titleLoop scanTitle
  rw [h0, whileLoop_cursor lines lines _ fuel [] (List.suffix_refl _) hfuel]
  simp only []
  rw [getElem?_cursorIndex lines _ hs]
  cases hcur : lines.dropWhile (fun l => !startsWith (trim l) "#".toList) with
  | nil => rfl
  | cons l rest =>
    rw [hcur] at hs
    simp only [List.head?_cons]
    by_cases hl : startsWith (trim l) "#".toList = true
    · simp only [if_pos hl, cursorIndex_succ lines l rest hs]
    · simp only [if_neg hl]

/-- The description scan with the index agrees with the description scan on the cursor. -/
theorem descriptionLoop_eq (lines cur : List Str) (fuel : Nat) (hcur : cur <:+ lines)
    (hfuel : lines.length ≤ fuel) :
    descriptionLoop lines fuel (cursorIndex lines cur) =
      some ((scanDescription (skipEmptyLines cur)).1,
        cursorIndex lines (scanDescription (skipEmptyLines cur)).2) := by
  unfold descriptionLoop
  rw [whileLoop_cursor lines cur _ fuel [] hcur hfuel]
  simp only []
  rw [whileLoop_cursor lines _ _ fuel [] ((List.dropWhile_suffix _).trans hcur) hfuel]
  rfl

/-- The table scan with the index agrees with the table scan on the cursor. -/
theorem tableLoop_eq (lines cur : List Str) (fuel : Nat) (hcur : cur <:+ lines)
    (hfuel : lines.length ≤ fuel) :
    tableLoop lines fuel (cursorIndex lines cur) =
      some ((scanTable cur).1, cursorIndex lines (scanTable cur).2) := by
  have hs : cur.dropWhile (fun l => !isTableLine l) <:+ lines :=
    (List.dropWhile_suffix _).trans hcur
  unfold tableLoop scanTable
  rw [whileLoop_cursor lines cur _ fuel [] hcur hfuel]
  simp only []
  rw [getElem?_cursorIndex lines _ hs]
  cases hc : cur.dropWhile (fun l => !isTableLine l) with
  | nil => rfl
  | cons l rest =>
    rw [hc] at hs
    simp only [List.head?_cons]
    by_cases hl : isTableLine l = true
    · simp only [if_pos hl]
      rw [whileLoop_cursor lines _ _ fuel [] hs hfuel]
      simp only [List.nil_append]
      split_ifs <;> rfl
    · simp only [if_neg hl]

/-- The example scan with the index agrees with the example scan on the cursor. -/
theorem exampleLoop_eq (lines cur : List Str) (fuel : Nat) (hcur : cur <:+ lines)
    (hfuel : lines.length ≤ fuel) :
    exampleLoop lines fuel (cursorIndex lines cur) = some (scanExample cur) := by
  have hs : cur.dropWhile (fun l => !isExampleLabel l) <:+ lines :=
    (List.dropWhile_suffix _).trans hcur
  unfold exampleLoop scanExample
  rw [whileLoop_cursor lines cur _ fuel [] hcur hfuel]
  simp only []
  rw [getElem?_cursorIndex lines _ hs]
  cases hc : cur.dropWhile (fun l => !isExampleLabel l) with
  | nil => rfl
  | cons l rest =>
    rw [hc] at hs
    have hrest : rest <:+ lines := (List.suffix_cons l rest).trans hs
    simp only [List.head?_cons]
    by_cases hl : isExampleLabel l = true
    · simp only [if_pos hl]
      rw [cursorIndex_succ lines l rest hs, whileLoop_cursor lines rest _ fuel [] hrest hfuel]
      simp only []
      have hs2 : rest.dropWhile (fun l => trim l == []) <:+ lines :=
        (List.dropWhile_suffix _).trans hrest
      rw [whileLoop_cursor lines _ _ fuel [] hs2 hfuel]
      simp only []
      have hs3 : (rest.dropWhile (fun l => trim l == [])).dropWhile (fun l => !isFence l) <:+
          lines := (List.dropWhile_suffix _).trans hs2
      rw [getElem?_cursorIndex lines _ hs3]
      unfold skipEmptyLines
      cases hc3 : (rest.dropWhile (fun l => trim l == [])).dropWhile (fun l => !isFence l) with
      | nil => rfl
      | cons f rest2 =>
        rw [hc3] at hs3
        simp only [List.head?_cons]
        by_cases hf : isFence f = true
        · simp only [if_pos hf]
          rw [cursorIndex_succ lines f rest2 hs3,
            whileLoop_cursor lines rest2 _ fuel [] ((List.suffix_cons f rest2).trans hs3) hfuel]
          rfl
        · simp only [if_neg hf]
    · simp only [if_neg hl]

/-- With at least as many iterations allowed as the text has lines, every loop of
`parseMarkdown` ends and the record returned is the one computed on the cursor. -/
theorem parseMarkdownLoops_eq (fuel : Nat) (content : Str)
    (hfuel : (split '\n' content).length ≤ fuel) :
    parseMarkdownLoops fuel content = some (parseMarkdown content) := by
  have h1 := scanTitle_suffix (split '\n' content)
  have h2 : (scanDescription (skipEmptyLines (scanTitle (split '\n' content)).2)).2 <:+
      split '\n' content :=
    (scanDescription_suffix _).trans ((skipEmptyLines_suffix _).trans h1)
  unfold parseMarkdownLoops
  simp only []
  rw [titleLoop_eq _ fuel hfuel]
  simp only []
  rw [descriptionLoop_eq _ _ fuel h1 hfuel]
  simp only []
  rw [tableLoop_eq _ _ fuel h2 hfuel]
  simp only []
  rw [exampleLoop_eq _ _ fuel ((scanTable_suffix _).trans h2) hfuel]
  rfl

/-- C16.  For every input string, every scanning loop of `parseMarkdown` ends within as
many iterations as the text has lines, and the function returns a record with the six
fields; for the empty string the title, description, summary, example and markdown are
empty strings and the syntax list is empty. -/
theorem parseMarkdown_total (content : Str) :
    (∃ r : ParsedDoc, parseMarkdownLoops (split '\n' content).length content = some r ∧
      r = parseMarkdown content) ∧
    parseMarkdown [] =
      { title := [], description := [], syntaxRows := [], exampleText := [], markdown := [],
        summary := [] } :=
  ⟨⟨parseMarkdown content, parseMarkdownLoops_eq _ content (Nat.le_refl _), rfl⟩, by decide⟩

/-! ## The command loader -/

/-- Reading a key after `set`: the value set for that key, the old value for another. -/
theorem mapGet_mapSet (m : CommandMap) (k : Str) (v : CommandRecord) (n : Str) :
    mapGet (mapSet m k v) n = if k = n then some v else mapGet m n := by
  induction m with
  | nil => simp [mapSet, mapGet]
  | cons e rest ih =>
    obtain ⟨k', v'⟩ := e
    by_cases h : k' = k
    · subst h
      by_cases hn : k' = n <;> simp [mapSet, mapGet, hn]
    · by_cases hn : k' = n
      · subst hn
        have hk : ¬ k = k' := fun hx => h hx.symm
        simp [mapSet, mapGet, h, hk]
      · simp [mapSet, mapGet, h, hn, ih]

/-- The keys after `set`: unchanged for a key that was there, with the key added at the
end otherwise. -/
theorem mapKeys_mapSet (m : CommandMap) (k : Str) (v : CommandRecord) :
    mapKeys (mapSet m k v) = if k ∈ mapKeys m then mapKeys m else mapKeys m ++ [k] := by
  induction m with
  | nil => simp [mapSet, mapKeys]
  | cons e rest ih =>
    obtain ⟨k', v'⟩ := e
    by_cases h : k' = k
    · subst h
      have hmem : k' ∈ mapKeys ((k', v') :: rest) := List.mem_cons_self _ _
      rw [if_pos hmem]
      simp only [mapSet, if_true]
      rfl
    · have hk : ¬ k = k' := fun hx => h hx.symm
      have hcons : mapKeys ((k', v') :: rest) = k' :: mapKeys rest := rfl
      have hset : mapKeys (mapSet ((k', v') :: rest) k v) = k' :: mapKeys (mapSet rest k v) := by
        simp only [mapSet, if_neg h]
        rfl
      rw [hset, hcons, ih]
      by_cases hm : k ∈ mapKeys rest
      · rw [if_pos hm, if_pos (List.mem_cons_of_mem _ hm)]
      · rw [if_neg hm, if_neg (by simp [hk, hm])]
        rfl

/-- The loop of `load()` over data ending with `cmd`. -/
theorem fillMap_concat (l : List CommandRecord) (cmd : CommandRecord) :
    fillMap (l ++ [cmd]) = mapSet (fillMap l) cmd.name cmd := by
  simp [fillMap, List.foldl_append]

/-- After the loop of `load()`, a name is mapped to the last entry of the data that has
this name. -/
theorem mapGet_fillMap (l : List CommandRecord) (n : Str) :
    mapGet (fillMap l) n = (l.filter (fun r => r.name = n)).getLast? := by
  induction l using List.reverseRecOn with
  | nil => rfl
  | append_singleton l cmd ih =>
    rw [fillMap_concat, mapGet_mapSet, List.filter_append]
    by_cases h : cmd.name = n
    · simp [h, List.getLast?_concat]
    · simp [h, ih]

/-- Membership in the distinct elements is membership in the list. -/
theorem mem_firstOccurrences (l : List Str) (x : Str) : x ∈ firstOccurrences l ↔ x ∈ l := by
  induction l with
  | nil => simp [firstOccurrences]
  | cons a l ih =>
    by_cases hx : x = a
    · simp [firstOccurrences, hx]
    · simp [firstOccurrences, hx, ih]

/-- The distinct elements of a list are pairwise different. -/
theorem nodup_firstOccurrences (l : List Str) : (firstOccurrences l).Nodup := by
  induction l with
  | nil => simp [firstOccurrences]
  | cons a l ih =>
    simp only [firstOccurrences, List.nodup_cons]
    exact ⟨by simp [List.mem_filter], ih.filter _⟩

/-- The distinct elements of a list without repetition are the list itself. -/
theorem firstOccurrences_of_nodup (l : List Str) (h : l.Nodup) : firstOccurrences l = l := by
  induction l with
  | nil => rfl
  | cons a l ih =>
    rw [List.nodup_cons] at h
    simp only [firstOccurrences, ih h.2]
    congr 1
    rw [List.filter_eq_self]
    intro b hb
    have : b ≠ a := fun hx => h.1 (hx ▸ hb)
    simpa using this

/-- The distinct elements of a list extended by one element at the end. -/
theorem firstOccurrences_concat (l : List Str) (a : Str) :
    firstOccurrences (l ++ [a]) =
      if a ∈ firstOccurrences l then firstOccurrences l else firstOccurrences l ++ [a] := by
  induction l with
  | nil => simp [firstOccurrences]
  | cons b l ih =>
    rw [List.cons_append]
    simp only [firstOccurrences]
    rw [ih]
    by_cases hab : a = b
    · subst hab
      by_cases hm : a ∈ firstOccurrences l
      · simp [hm]
      · simp [hm, List.filter_append]
    · by_cases hm : a ∈ firstOccurrences l
      · simp [hm, hab, List.mem_filter]
      · simp [hm, hab, List.mem_filter, List.filter_append]

/-- After the loop of `load()`, the keys are the distinct names of the data in the order
of their first occurrence. -/
theorem mapKeys_fillMap (l : List CommandRecord) :
    mapKeys (fillMap l) = firstOccurrences (l.map CommandRecord.name) := by
  induction l using List.reverseRecOn with
  | nil => rfl
  | append_singleton l cmd ih =>
    rw [fillMap_concat, mapKeys_mapSet, List.map_append, List.map_singleton,
      firstOccurrences_concat, ih]

/-- A call of `load()` on a loader that is not loaded, when there is data to read: it
returns `true` and leaves the map filled from the data read, with the flag set. -/
theorem load_of_dataRead (files : Files) (s : CommandLoader) (l : List CommandRecord)
    (hs : s.loaded = false) (hl : files.dataRead = some l) :
    s.load files = (true, { commandMap := fillMap l, loaded := true }) := by
  unfold Files.dataRead at hl
  unfold CommandLoader.load CommandLoader.loadFallback
  rw [hs]
  cases he : files.enhanced with
  | records d =>
    rw [he] at hl
    simp only [Option.some.injEq] at hl
    simp [hl]
  | missing =>
    rw [he] at hl
    cases hb : files.baseline with
    | records d =>
      rw [hb] at hl
      simp only [Option.some.injEq] at hl
      simp [hl]
    | missing => rw [hb] at hl; simp at hl
    | unreadable => rw [hb] at hl; simp at hl
  | unreadable =>
    rw [he] at hl
    cases hb : files.baseline with
    | records d =>
      rw [hb] at hl
      simp only [Option.some.injEq] at hl
      simp [hl]
    | missing => rw [hb] at hl; simp at hl
    | unreadable => rw [hb] at hl; simp at hl

/-- A loader that is loaded is left as it is by the guard of the reading methods. -/
theorem ensureLoaded_of_loaded (files : Files) (s : CommandLoader) (hs : s.loaded = true) :
    s.ensureLoaded files = s := by
  simp [CommandLoader.ensureLoaded, hs]

/-- The distinct elements of a list occur in it in the same order. -/
theorem firstOccurrences_sublist (l : List Str) : (firstOccurrences l).Sublist l := by
  induction l with
  | nil => exact List.Sublist.slnil
  | cons a l ih => exact ((List.filter_sublist _).trans ih).cons₂ a

/-- C17.  After a call of `load()` on a loader that was not loaded has read the record
list `l`: the call returned `true`, and from then on, whatever the files hold, for every
string `n`, `getCommand(n)` returns the last record of `l` named `n`, or `undefined` when
there is none; `hasCommand(n)` is `true` exactly when some record of `l` is named `n`, and
`false` exactly when `getCommand(n)` is `undefined`. -/
theorem getCommand_after_load (files : Files) (s : CommandLoader) (l : List CommandRecord)
    (hs : s.loaded = false) (hl : files.dataRead = some l) :
    (s.load files).1 = true ∧
    ∀ (later : Files) (n : Str),
      ((s.load files).2.getCommand later n).1 = (l.filter (fun r => r.name = n)).getLast? ∧
      (((s.load files).2.hasCommand later n).1 = true ↔ ∃ r ∈ l, r.name = n) ∧
      (((s.load files).2.hasCommand later n).1 = false ↔
        ((s.load files).2.getCommand later n).1 = none) := by
  rw [load_of_dataRead files s l hs hl]
  refine ⟨rfl, fun later n => ?_⟩
  have he : CommandLoader.ensureLoaded later { commandMap := fillMap l, loaded := true } =
      { commandMap := fillMap l, loaded := true } :=
    ensureLoaded_of_loaded later { commandMap := fillMap l, loaded := true } rfl
  have hget : (CommandLoader.getCommand later
      { commandMap := fillMap l, loaded := true } n).1 =
      (l.filter (fun r => r.name = n)).getLast? := by
    simp only [CommandLoader.getCommand, he, mapGet_fillMap]
  have hhas : (CommandLoader.hasCommand later
      { commandMap := fillMap l, loaded := true } n).1 =
      ((l.filter (fun r => r.name = n)).getLast?).isSome := by
    simp only [CommandLoader.hasCommand, he, mapHas,
      mapGet_fillMap]
  refine ⟨hget, ?_, ?_⟩
  · rw [hhas, List.getLast?_isSome]
    constructor
    · intro hne
      obtain ⟨r, hr⟩ := List.exists_mem_of_ne_nil _ hne
      rw [List.mem_filter] at hr
      exact ⟨r, hr.1, by simpa using hr.2⟩
    · rintro ⟨r, hr, hn⟩
      exact List.ne_nil_of_mem (List.mem_filter.2 ⟨hr, by simpa using hn⟩)
  · rw [hhas, hget]
    cases (l.filter (fun r => r.name = n)).getLast? <;> simp

/-- A witness for `getCommand_after_load`: with two entries named `abs` in the data,
`getCommand` returns the second of them, and `hasCommand` is `false` for a name that does
not occur. -/
theorem getCommand_after_load_witness :
    (((CommandLoader.new.load repeatedNameFiles).2.getCommand repeatedNameFiles
        "abs".toList).1.map CommandRecord.description = some "second".toList) ∧
    ((CommandLoader.new.load repeatedNameFiles).2.hasCommand repeatedNameFiles
        "nonexistentcommand".toList).1 = false := by
  have h := getCommand_after_load repeatedNameFiles CommandLoader.new repeatedNameData rfl rfl
  refine ⟨?_, ?_⟩
  · rw [(h.2 repeatedNameFiles "abs".toList).1]
    decide
  · rw [(h.2 repeatedNameFiles "nonexistentcommand".toList).2.2,
      (h.2 repeatedNameFiles "nonexistentcommand".toList).1]
    decide

/-- C18.  After a call of `load()` on a loader that was not loaded has read the record
list `l`, from then on, whatever the files hold: `getAllCommandNames()` returns the
distinct names of `l`, each once, in the order of their first occurrence (a list without
repetition, with the names of `l` as members, in the order in which they occur in `l`);
`getCommandCount()` is the length of that list; and it is the length of `l` when the names
in `l` are pairwise distinct. -/
theorem names_after_load (files : Files) (s : CommandLoader) (l : List CommandRecord)
    (hs : s.loaded = false) (hl : files.dataRead = some l) :
    ∀ later : Files,
      ((s.load files).2.getAllCommandNames later).1 =
        firstOccurrences (l.map CommandRecord.name) ∧
      ((s.load files).2.getAllCommandNames later).1.Nodup ∧
      (∀ n, n ∈ ((s.load files).2.getAllCommandNames later).1 ↔ ∃ r ∈ l, r.name = n) ∧
      ((s.load files).2.getAllCommandNames later).1.Sublist (l.map CommandRecord.name) ∧
      ((s.load files).2.getCommandCount later).1 =
        ((s.load files).2.getAllCommandNames later).1.length ∧
      ((l.map CommandRecord.name).Nodup →
        ((s.load files).2.getCommandCount later).1 = l.length) := by
  intro later
  rw [load_of_dataRead files s l hs hl]
  have he : CommandLoader.ensureLoaded later { commandMap := fillMap l, loaded := true } =
      { commandMap := fillMap l, loaded := true } :=
    ensureLoaded_of_loaded later { commandMap := fillMap l, loaded := true } rfl
  have hnames : (CommandLoader.getAllCommandNames later
      { commandMap := fillMap l, loaded := true }).1 =
      firstOccurrences (l.map CommandRecord.name) := by
    simp only [CommandLoader.getAllCommandNames, he,
      mapKeys_fillMap]
  have hcount : (CommandLoader.getCommandCount later
      { commandMap := fillMap l, loaded := true }).1 =
      (firstOccurrences (l.map CommandRecord.name)).length := by
    simp only [CommandLoader.getCommandCount, he, mapSize]
    rw [← mapKeys_fillMap]
    simp [mapKeys]
  rw [hnames, hcount]
  refine ⟨rfl, nodup_firstOccurrences _, fun n => ?_, firstOccurrences_sublist _, rfl, ?_⟩
  · rw [mem_firstOccurrences]
    simp
  · intro hnd
    rw [firstOccurrences_of_nodup _ hnd]
    simp

/-- A witness for `names_after_load`: the data with names `abs`, `acos`, `abs` gives the
names `abs`, `acos` and the count 2. -/
theorem names_after_load_witness :
    ((CommandLoader.new.load repeatedNameFiles).2.getAllCommandNames repeatedNameFiles).1 =
      ["abs".toList, "acos".toList] ∧
    ((CommandLoader.new.load repeatedNameFiles).2.getCommandCount repeatedNameFiles).1 = 2 := by
  have h := names_after_load repeatedNameFiles CommandLoader.new repeatedNameData rfl rfl
    repeatedNameFiles
  refine ⟨h.1.trans (by decide), ?_⟩
  rw [h.2.2.2.2.1, h.1]
  decide

/-- What `getCommand` returns once `load()` has read the list `l`. -/
theorem getCommand_load (files : Files) (s : CommandLoader) (l : List CommandRecord)
    (hs : s.loaded = false) (hl : files.dataRead = some l) (later : Files) (n : Str) :
    ((s.load files).2.getCommand later n).1 = (l.filter (fun r => r.name = n)).getLast? := by
  rw [load_of_dataRead files s l hs hl]
  simp only [CommandLoader.getCommand,
    ensureLoaded_of_loaded later { commandMap := fillMap l, loaded := true } rfl,
    mapGet_fillMap]

/-- What `getAllCommandNames` returns once `load()` has read the list `l`. -/
theorem getAllCommandNames_load (files : Files) (s : CommandLoader) (l : List CommandRecord)
    (hs : s.loaded = false) (hl : files.dataRead = some l) (later : Files) :
    ((s.load files).2.getAllCommandNames later).1 =
      firstOccurrences (l.map CommandRecord.name) := by
  rw [load_of_dataRead files s l hs hl]
  simp only [CommandLoader.getAllCommandNames,
    ensureLoaded_of_loaded later { commandMap := fillMap l, loaded := true } rfl,
    mapKeys_fillMap]

/-- C19, as stated, fails: with the enhanced file missing and the sample baseline in
`commands.json`, `load()` returns `true` and the entry served for `abs` is the baseline
entry as parsed, which has no `markdown`, `syntax` or `example` field; so no entry with
these three fields present and empty is served. -/
theorem fallback_entry_fields_absent :
    (CommandLoader.new.load fallbackFiles).1 = true ∧
    (((CommandLoader.new.load fallbackFiles).2.getCommand fallbackFiles "abs".toList).1.map
      (fun r => (r.markdown, r.syntaxRows, r.exampleText))) = some (none, none, none) ∧
    ¬ ∃ r, ((CommandLoader.new.load fallbackFiles).2.getCommand fallbackFiles
        "abs".toList).1 = some r ∧
      r.markdown = some [] ∧ r.syntaxRows = some [] ∧ r.exampleText = some [] := by
  refine ⟨by decide, by decide, ?_⟩
  rintro ⟨r, hr, hm, -⟩
  have h : (((CommandLoader.new.load fallbackFiles).2.getCommand fallbackFiles
      "abs".toList).1.map (fun r => r.markdown)) = some none := by decide
  rw [hr] at h
  simp only [Option.map_some', Option.some.injEq] at h
  rw [hm] at h
  exact absurd h (by decide)

/-- C19, amended.  When the enhanced data file is missing or unreadable and
`commands.json` holds the baseline list `B`, a call of `load()` on a loader that was not
loaded returns `true` and sets `loaded`; from then on the names served are the distinct
names of `B`, and the entry served for a name is the last entry of `B` with that name as
parsed: it carries the baseline fields unchanged and has no `markdown`, `syntax` or
`example` field. -/
theorem load_fallback (files : Files) (s : CommandLoader) (B : List BaselineRecord)
    (hs : s.loaded = false)
    (he : files.enhanced = DataFile.missing ∨ files.enhanced = DataFile.unreadable)
    (hb : files.baseline = DataFile.records (B.map BaselineRecord.toCommand)) :
    (s.load files).1 = true ∧ (s.load files).2.loaded = true ∧
    ∀ later : Files,
      ((s.load files).2.getAllCommandNames later).1 =
        firstOccurrences (B.map BaselineRecord.name) ∧
      ∀ n : Str,
        ((s.load files).2.getCommand later n).1 =
          ((B.filter (fun b => b.name = n)).getLast?).map BaselineRecord.toCommand ∧
        ∀ r, ((s.load files).2.getCommand later n).1 = some r →
          ∃ b ∈ B, b.name = n ∧ r.name = b.name ∧ r.description = b.description ∧
            r.usage = b.usage ∧ r.category = b.category ∧ r.other = b.other ∧
            r.markdown = none ∧ r.syntaxRows = none ∧ r.exampleText = none := by
  have hl : files.dataRead = some (B.map BaselineRecord.toCommand) := by
    unfold Files.dataRead
    rcases he with he | he <;> rw [he, hb]
  have hload := load_of_dataRead files s _ hs hl
  have h17 := getCommand_load files s _ hs hl
  have h18 := getAllCommandNames_load files s _ hs hl
  refine ⟨by rw [hload], by rw [hload], fun later => ⟨?_, fun n => ?_⟩⟩
  · rw [h18 later, List.map_map]
    rfl
  · have hget : ((s.load files).2.getCommand later n).1 =
        ((B.filter (fun b => b.name = n)).getLast?).map BaselineRecord.toCommand := by
      rw [h17 later n, List.filter_map, List.getLast?_map]
      rfl
    refine ⟨hget, fun r hr => ?_⟩
    rw [hget] at hr
    cases hlast : (B.filter (fun b => b.name = n)).getLast? with
    | none => rw [hlast] at hr; simp at hr
    | some b =>
      rw [hlast] at hr
      simp only [Option.map_some', Option.some.injEq] at hr
      have hmem := List.mem_of_getLast?_eq_some hlast
      rw [List.mem_filter] at hmem
      subst hr
      exact ⟨b, hmem.1, by simpa using hmem.2, rfl, rfl, rfl, rfl, rfl, rfl, rfl, rfl⟩

/-- A witness for `load_fallback`: the enhanced file missing and the sample baseline. -/
theorem load_fallback_witness :
    (CommandLoader.new.load fallbackFiles).1 = true ∧
    (CommandLoader.new.load fallbackFiles).2.loaded = true ∧
    ((CommandLoader.new.load fallbackFiles).2.getAllCommandNames fallbackFiles).1 =
      ["abs".toList] := by
  have h := load_fallback fallbackFiles CommandLoader.new absBaseline rfl (Or.inl rfl) rfl
  exact ⟨h.1, h.2.1, (h.2.2 fallbackFiles).1.trans (by decide)⟩

/-! ## The hover provider -/

/-- C20.  For every command record whose `markdown` field is a non-empty string,
`createMarkdownContent` returns content whose value is that string and whose `isTrusted`
is `true`, whatever the other fields are. -/
theorem createMarkdownContent_enhanced (command : CommandRecord) (markdown : Str)
    (hm : command.markdown = some markdown) (hne : markdown ≠ []) :
    (createMarkdownContent command).value = markdown ∧
    (createMarkdownContent command).isTrusted = true := by
  have ht : isTruthy command.markdown = true := by
    rw [hm]
    simpa [isTruthy] using hne
  unfold createMarkdownContent
  rw [if_pos ht, hm]
  exact ⟨rfl, rfl⟩

/-- A witness for `createMarkdownContent_enhanced`: the command of the test. -/
theorem createMarkdownContent_enhanced_witness :
    (createMarkdownContent enhancedTestCommand).value =
      "# Test Command\n\nThis is a test command.".toList ∧
    (createMarkdownContent enhancedTestCommand).isTrusted = true :=
  createMarkdownContent_enhanced enhancedTestCommand
    "# Test Command\n\nThis is a test command.".toList rfl (by decide)

set_option maxRecDepth 8000

/-- A witness for `summary_derivation`: a description whose first sentence is short gives
that sentence, and one whose first sentence has more than 100 units gives 103 units ending
in `...`. -/
theorem summary_derivation_witness :
    (parseMarkdown absDocument).summary = "Returns absolute value".toList ∧
    (parseMarkdown longSentenceDocument).summary =
      ("Returns the values of a data set interpolated linearly onto a new set " ++
       "of points that may lie anywhere").toList.take 100 ++ "...".toList ∧
    (parseMarkdown longSentenceDocument).summary.length = 103 := by
  have h := (summary_derivation longSentenceDocument).2
    ("Returns the values of a data set interpolated linearly onto a new set " ++
     "of points that may lie anywhere inside the original range of the data").toList
    (by decide) (by decide) (Or.inr ⟨" See interp.".toList, by decide⟩)
  exact ⟨((summary_derivation absDocument).2 "Returns absolute value".toList (by decide)
      (by decide) (Or.inr ⟨[], by decide⟩)).1 (by decide),
    (h.2 (by decide)).1.trans (by decide), (h.2 (by decide)).2⟩

/-- A witness for `title_extraction`: a text whose first non-blank line is `# Foo` with
white space around it has the title `Foo`. -/
theorem title_extraction_witness :
    (parseMarkdown fooDocument).title = "Foo".toList :=
  (title_extraction fooDocument).2.2.1 [[]] "  # Foo  ".toList ["bar".toList] "Foo".toList
    (by decide) (by decide) (by decide) (by decide)

/-! ## The cells of a syntax row -/

/-- Removing the bold markers from a string that does not start with `*` keeps its first
unit. -/
theorem replaceBold_head (d : Char) (cs : Str) (hd : d ≠ '*') :
    (replaceBold (d :: cs)).head? = some d := by
  cases cs with
  | nil => rfl
  | cons e cs' => simp [replaceBold, hd]

/-- After the bold markers are removed no two `*` stand next to each other. -/
theorem replaceBold_chain (s : Str) :
    List.Chain' (fun a b => ¬ (a = '*' ∧ b = '*')) (replaceBold s) := by
  induction s using replaceBold.induct with
  | case1 => simp [replaceBold]
  | case2 c => simp [replaceBold]
  | case3 c d cs h ih =>
    rw [replaceBold, if_pos h]
    exact ih
  | case4 c d cs h ih =>
    rw [replaceBold, if_neg h]
    rw [List.chain'_cons']
    refine ⟨?_, ih⟩
    intro y hy
    by_cases hd : d = '*'
    · intro hx
      exact h ⟨hx.1, hd⟩
    · rw [replaceBold_head d cs hd] at hy
      simp only [Option.mem_def, Option.some.injEq] at hy
      intro hx
      exact hd (hy ▸ hx.2)

/-- A string in which no two `*` stand next to each other does not contain `**`. -/
theorem not_bold_of_chain (s : Str)
    (h : List.Chain' (fun a b => ¬ (a = '*' ∧ b = '*')) s) :
    ¬ "**".toList <:+: s := by
  rintro ⟨p, q, rfl⟩
  have h1 : List.Chain' (fun a b => ¬ (a = '*' ∧ b = '*')) ("**".toList ++ q) :=
    List.Chain'.right_of_append (show List.Chain' (fun a b => ¬ (a = '*' ∧ b = '*'))
      (p ++ ("**".toList ++ q)) by rw [← List.append_assoc]; exact h)
  have h2 : List.Chain' (fun a b => ¬ (a = '*' ∧ b = '*')) ['*', '*'] :=
    List.Chain'.left_of_append h1
  rw [List.chain'_cons] at h2
  exact h2.1 ⟨rfl, rfl⟩

/-- A trimmed string does not start with white space. -/
theorem trim_head (s : Str) (c : Char) (h : (trim s).head? = some c) :
    isWhiteSpace c = false := by
  have h1 : trim s <+: trimStart s := by
    unfold trim trimEnd
    have := List.dropWhile_suffix (l := (trimStart s).reverse) isWhiteSpace
    simpa using List.reverse_prefix.2 this
  have h2 : (trimStart s).head? = some c := by
    obtain ⟨t, ht⟩ := h1
    cases hts : trim s with
    | nil => rw [hts] at h; simp at h
    | cons a r =>
      rw [hts] at h ht
      rw [← ht]
      simpa using h
  have := List.head?_dropWhile_not isWhiteSpace s
  unfold trimStart at h2
  rw [h2] at this
  simpa using this

/-- A cell of a syntax row, `cell.replace(/\*\*/g, '').trim()`, does not contain `**`, does
not start with white space and does not end with white space. -/
theorem cell_clean (cell : Str) :
    includes (trim (replaceBold cell)) "**".toList = false ∧
    (∀ c, (trim (replaceBold cell)).head? = some c → isWhiteSpace c = false) ∧
    (∀ c, (trim (replaceBold cell)).getLast? = some c → isWhiteSpace c = false) := by
  refine ⟨?_, ?_, fun c hc => trim_getLast _ c hc⟩
  · cases hinc : includes (trim (replaceBold cell)) "**".toList with
    | false => rfl
    | true =>
      exact absurd (((includes_iff _ _).1 hinc).trans (trim_occurs _))
        (not_bold_of_chain _ (replaceBold_chain cell))
  · intro c hc
    exact trim_head _ c hc

/-- Every row found by the table scan was pushed by the loop body for some table line. -/
theorem scanTable_rows (cur : List Str) :
    ∀ r ∈ (scanTable cur).1, ∃ row, parseRow row = some r := by
  intro r hr
  unfold scanTable at hr
  cases hc : cur.dropWhile (fun l => !isTableLine l) with
  | nil => rw [hc] at hr; simp at hr
  | cons l rest =>
    rw [hc] at hr
    by_cases hl : isTableLine l = true
    · simp only [hl, if_true] at hr
      by_cases hlen : (List.takeWhile isTableLine (l :: rest)).length ≥ 2
      · rw [if_pos hlen] at hr
        obtain ⟨row, -, hrow⟩ := List.mem_filterMap.1 hr
        exact ⟨row, hrow⟩
      · rw [if_neg hlen] at hr
        simp at hr
    · simp only [hl, if_false, Bool.false_eq_true] at hr
      simp at hr

/-- A row pushed by the loop body has cells of the form `cell.replace(/\*\*/g, '').trim()`. -/
theorem parseRow_cells (row : Str) (r : SyntaxRow) (h : parseRow row = some r) :
    ∃ c0 c1, r.syntaxText = trim (replaceBold c0) ∧ r.description = trim (replaceBold c1) := by
  unfold parseRow at h
  cases hc : ((split '|' row).map trim).filter (fun cell => cell != []) with
  | nil => rw [hc] at h; simp at h
  | cons c0 rest =>
    cases rest with
    | nil => rw [hc] at h; simp at h
    | cons c1 rest' =>
      rw [hc] at h
      simp only [Option.some.injEq] at h
      exact ⟨c0, c1, by rw [← h], by rw [← h]⟩

/-- C22.  For every text, in every syntax row returned by `parseMarkdown` neither the
syntax field nor the description field contains `**`, starts with white space or ends
with white space. -/
theorem syntax_cells_clean (content : Str) (r : SyntaxRow)
    (hr : r ∈ (parseMarkdown content).syntaxRows) :
    includes r.syntaxText "**".toList = false ∧
    includes r.description "**".toList = false ∧
    (∀ c, r.syntaxText.head? = some c → isWhiteSpace c = false) ∧
    (∀ c, r.syntaxText.getLast? = some c → isWhiteSpace c = false) ∧
    (∀ c, r.description.head? = some c → isWhiteSpace c = false) ∧
    (∀ c, r.description.getLast? = some c → isWhiteSpace c = false) := by
  have hr' : r ∈ (scanTable
      (scanDescription (skipEmptyLines (scanTitle (split '\n' content)).2)).2).1 := hr
  obtain ⟨row, hrow⟩ := scanTable_rows _ r hr'
  obtain ⟨c0, c1, h0, h1⟩ := parseRow_cells row r hrow
  rw [h0, h1]
  exact ⟨(cell_clean c0).1, (cell_clean c1).1, (cell_clean c0).2.1, (cell_clean c0).2.2,
    (cell_clean c1).2.1, (cell_clean c1).2.2⟩

/-- A witness for `syntax_cells_clean`: the row of a table line with the cells
`***abs(x)**` and `**Absolute** value ***` has the cells `*abs(x)` and `Absolute value *`,
and they are clean. -/
theorem syntax_cells_clean_witness :
    (parseMarkdown boldCellsDocument).syntaxRows =
      [{ syntaxText := "*abs(x)".toList, description := "Absolute value *".toList }] ∧
    includes "*abs(x)".toList "**".toList = false ∧
    includes "Absolute value *".toList "**".toList = false :=
  ⟨by decide,
    (syntax_cells_clean boldCellsDocument
      { syntaxText := "*abs(x)".toList, description := "Absolute value *".toList }
      (by decide)).1,
    (syntax_cells_clean boldCellsDocument
      { syntaxText := "*abs(x)".toList, description := "Absolute value *".toList }
      (by decide)).2.1⟩

/-! ## A text without a heading line -/

/-- C23.  For every text in which no line has a trimmed form starting with `#`,
`parseMarkdown` returns an empty title, an empty description, an empty summary, an empty
syntax list and an empty example, whatever table or example section the text contains;
the markdown is computed from the whole text as for any other text. -/
theorem no_heading (content : Str)
    (h : ∀ l ∈ split '\n' content, startsWith (trim l) "#".toList = false) :
    (parseMarkdown content).title = [] ∧
    (parseMarkdown content).description = [] ∧
    (parseMarkdown content).summary = [] ∧
    (parseMarkdown content).syntaxRows = [] ∧
    (parseMarkdown content).exampleText = [] ∧
    (parseMarkdown content).markdown =
      (if findSeeAlsoIndex content seeAlsoPatterns ≠ -1 then
        trim (substring0 content (findSeeAlsoIndex content seeAlsoPatterns))
       else content) := by
  have ht := scanTitle_none _ h
  refine ⟨?_, ?_, ?_, ?_, ?_, rfl⟩
  · show (scanTitle (split '\n' content)).1 = []
    rw [ht]
  · show join " ".toList
      (scanDescription (skipEmptyLines (scanTitle (split '\n' content)).2)).1 = []
    rw [ht]
    rfl
  · show makeSummary (join " ".toList
      (scanDescription (skipEmptyLines (scanTitle (split '\n' content)).2)).1)
      (scanTitle (split '\n' content)).1 = []
    rw [ht]
    rfl
  · show (scanTable
      (scanDescription (skipEmptyLines (scanTitle (split '\n' content)).2)).2).1 = []
    rw [ht]
    rfl
  · show scanExample (scanTable
      (scanDescription (skipEmptyLines (scanTitle (split '\n' content)).2)).2).2 = []
    rw [ht]
    rfl

/-- A witness for `no_heading`: a text with a table, an example and a trailing section but
no heading line has five empty fields, and its markdown is cut at the trailing section. -/
theorem no_heading_witness :
    (parseMarkdown noHeadingDocument).title = [] ∧
    (parseMarkdown noHeadingDocument).description = [] ∧
    (parseMarkdown noHeadingDocument).summary = [] ∧
    (parseMarkdown noHeadingDocument).syntaxRows = [] ∧
    (parseMarkdown noHeadingDocument).exampleText = [] ∧
    (parseMarkdown noHeadingDocument).markdown =
      ("Returns absolute value.\n\n| Syntax | Description |\n|---|---|\n" ++
       "| abs(x) | Absolute value of x |\n\n**Example**\n\n```\nabs(-2)\n```").toList := by
  have h := no_heading noHeadingDocument (by decide)
  exact ⟨h.1, h.2.1, h.2.2.1, h.2.2.2.1, h.2.2.2.2.1, h.2.2.2.2.2.trans (by decide)⟩

/-! ## The loader: what `load()` returns, and reloading -/

/-- What `load()` does on a loader that is not loaded when neither file holds a list:
it returns `false` and leaves the loader as it was. -/
theorem load_of_no_data (files : Files) (s : CommandLoader) (hs : s.loaded = false)
    (he : files.enhanced = DataFile.missing ∨ files.enhanced = DataFile.unreadable)
    (hb : files.baseline = DataFile.missing ∨ files.baseline = DataFile.unreadable) :
    s.load files = (false, s) := by
  unfold CommandLoader.load CommandLoader.loadFallback
  rw [hs]
  rcases he with he | he <;> rcases hb with hb | hb <;> rw [he, hb] <;> rfl

/-- What `load()` does on a loader that is loaded: it returns `true` and leaves the loader
as it was. -/
theorem load_of_loaded (files : Files) (s : CommandLoader) (hs : s.loaded = true) :
    s.load files = (true, s) := by
  unfold CommandLoader.load
  rw [if_pos hs]

/-- A data file is missing, unreadable or holds a list. -/
theorem dataFile_cases (f : DataFile) :
    (f = DataFile.missing ∨ f = DataFile.unreadable) ∨ ∃ l, f = DataFile.records l := by
  cases f with
  | missing => exact Or.inl (Or.inl rfl)
  | unreadable => exact Or.inl (Or.inr rfl)
  | records l => exact Or.inr ⟨l, rfl⟩

/-- The three outcomes of `load()`: the loader was loaded and is left as it was; or it was
not loaded, there is data to read, and the loader is filled from it; or it was not loaded,
neither file holds a list, and the call returns `false` leaving the loader as it was. -/
theorem load_cases (files : Files) (s : CommandLoader) :
    (s.loaded = true ∧ s.load files = (true, s)) ∨
    (s.loaded = false ∧ ∃ l, files.dataRead = some l ∧
      s.load files = (true, { commandMap := fillMap l, loaded := true })) ∨
    (s.loaded = false ∧
      (files.enhanced = DataFile.missing ∨ files.enhanced = DataFile.unreadable) ∧
      (files.baseline = DataFile.missing ∨ files.baseline = DataFile.unreadable) ∧
      s.load files = (false, s)) := by
  cases hs : s.loaded with
  | true => exact Or.inl ⟨rfl, load_of_loaded files s hs⟩
  | false =>
    right
    rcases dataFile_cases files.enhanced with he | ⟨l, he⟩
    · rcases dataFile_cases files.baseline with hb | ⟨l, hb⟩
      · exact Or.inr ⟨rfl, he, hb, load_of_no_data files s hs he hb⟩
      · have hl : files.dataRead = some l := by
          unfold Files.dataRead
          rcases he with he | he <;> rw [he, hb]
        exact Or.inl ⟨rfl, l, hl, load_of_dataRead files s l hs hl⟩
    · have hl : files.dataRead = some l := by
        unfold Files.dataRead
        rw [he]
      exact Or.inl ⟨rfl, l, hl, load_of_dataRead files s l hs hl⟩

/-- C24.  For every loader state and every state of the two data files, `load()` returns
`true` exactly when the flag `loaded` is `true` after the call; and when it returns
`false`, the loader was not loaded before the call, the enhanced file was missing or
unreadable and so was the baseline file. -/
theorem load_result (files : Files) (s : CommandLoader) :
    ((s.load files).1 = true ↔ (s.load files).2.loaded = true) ∧
    ((s.load files).1 = false →
      s.loaded = false ∧
      (files.enhanced = DataFile.missing ∨ files.enhanced = DataFile.unreadable) ∧
      (files.baseline = DataFile.missing ∨ files.baseline = DataFile.unreadable)) := by
  rcases load_cases files s with ⟨hs, h⟩ | ⟨hs, l, -, h⟩ | ⟨hs, he, hb, h⟩
  · rw [h]
    exact ⟨by simp [hs], by simp⟩
  · rw [h]
    exact ⟨by simp, by simp⟩
  · rw [h]
    exact ⟨by simp [hs], fun _ => ⟨hs, he, hb⟩⟩

/-- A witness for `load_result`: a new loader with neither file readable gets `false` and
stays not loaded; with the sample baseline it gets `true` and is loaded. -/
theorem load_result_witness :
    ((CommandLoader.new.load noFiles).1 = false ∧
      (CommandLoader.new.load noFiles).2.loaded = false) ∧
    ((CommandLoader.new.load fallbackFiles).1 = true ∧
      (CommandLoader.new.load fallbackFiles).2.loaded = true) :=
  ⟨⟨by decide, by
      have h := (load_result noFiles CommandLoader.new).1
      cases hl : (CommandLoader.new.load noFiles).2.loaded with
      | false => rfl
      | true => exact absurd (h.2 hl) (by decide)⟩,
    ⟨by decide, (load_result fallbackFiles CommandLoader.new).1.1 (by decide)⟩⟩

/-- C25.  On a loader whose flag `loaded` is `true`, `load()` returns `true` and `preload()`
returns, both leaving `commandMap` and `loaded` as they were, whatever the data files
hold; so a second `load()` after one that returned `true` changes nothing.  And `clear()`
always leaves `commandMap` empty and `loaded` false, so that the next `load()` does what
it does on a new loader: it reads the data again. -/
theorem load_idempotent (files : Files) (s : CommandLoader) :
    (s.loaded = true → s.load files = (true, s) ∧ s.preload files = s) ∧
    (∀ earlier : Files, (s.load earlier).1 = true →
      (s.load earlier).2.load files = (true, (s.load earlier).2) ∧
      (s.load earlier).2.preload files = (s.load earlier).2) ∧
    s.clear.commandMap = [] ∧ s.clear.loaded = false ∧
    s.clear.load files = CommandLoader.new.load files ∧
    (∀ l, files.dataRead = some l →
      s.clear.load files = (true, { commandMap := fillMap l, loaded := true })) := by
  have hloaded : ∀ t : CommandLoader, t.loaded = true →
      t.load files = (true, t) ∧ t.preload files = t := fun t ht =>
    ⟨load_of_loaded files t ht, ensureLoaded_of_loaded files t ht⟩
  refine ⟨hloaded s, ?_, rfl, rfl, rfl, ?_⟩
  · intro earlier h
    apply hloaded
    rcases load_cases earlier s with ⟨hs, h'⟩ | ⟨hs, l, -, h'⟩ | ⟨hs, -, -, h'⟩
    · rw [h']
      exact hs
    · rw [h']
    · rw [h'] at h
      exact absurd h Bool.false_ne_true
  · intro l hl
    exact load_of_dataRead files s.clear l rfl hl

/-- A witness for `load_idempotent`: a loader loaded from `repeatedNameFiles` is left as it
is by `load()` when the files have changed, and after `clear()` the next `load()` reads
the files as they then are. -/
theorem load_idempotent_witness :
    (CommandLoader.new.load repeatedNameFiles).2.load fallbackFiles =
      (true, (CommandLoader.new.load repeatedNameFiles).2) ∧
    ((CommandLoader.new.load repeatedNameFiles).2.clear.load fallbackFiles).2.commandMap =
      fillMap (absBaseline.map BaselineRecord.toCommand) :=
  ⟨((load_idempotent fallbackFiles CommandLoader.new).2.1 repeatedNameFiles (by decide)).1,
    by
      rw [(load_idempotent fallbackFiles (CommandLoader.new.load repeatedNameFiles).2).2.2.2.2.2
        (absBaseline.map BaselineRecord.toCommand) rfl]⟩

/-! ## The completion provider -/

/-- A string ends with a one-unit string exactly when that unit is its last. -/
theorem endsWith_singleton (s : Str) (c : Char) :
    endsWith s [c] = true ↔ s.getLast? = some c := by
  unfold endsWith
  rw [List.isSuffixOf_iff_suffix, List.getLast?_eq_some_iff]
  constructor
  · rintro ⟨t, ht⟩
    exact ⟨t, ht.symm⟩
  · rintro ⟨t, ht⟩
    exact ⟨t, ht.symm⟩

/-- A string includes a one-unit string exactly when that unit is one of its units. -/
theorem includes_singleton (s : Str) (c : Char) : includes s [c] = true ↔ c ∈ s := by
  rw [includes_iff]
  constructor
  · rintro ⟨a, b, rfl⟩
    simp
  · intro h
    obtain ⟨a, b, rfl⟩ := List.append_of_mem h
    exact ⟨a, b, by simp⟩

/-- A string of white space only has nothing left when its trailing white space is
removed. -/
theorem trimEnd_eq_nil (p : Str) (h : ∀ c ∈ p, isWhiteSpace c = true) : trimEnd p = [] := by
  unfold trimEnd
  rw [List.reverse_eq_nil_iff, List.dropWhile_eq_nil_iff]
  intro c hc
  exact h c (List.mem_reverse.1 hc)

/-- Removing trailing white space keeps every unit that is not white space. -/
theorem mem_trimEnd (p : Str) (c : Char) (hc : isWhiteSpace c = false) :
    c ∈ trimEnd p ↔ c ∈ p := by
  unfold trimEnd
  rw [List.mem_reverse]
  constructor
  · intro h
    exact List.mem_reverse.1 ((List.dropWhile_suffix _).subset h)
  · intro h
    have h1 : c ∈ p.reverse := List.mem_reverse.2 h
    rw [← List.takeWhile_append_dropWhile isWhiteSpace p.reverse, List.mem_append] at h1
    rcases h1 with h1 | h1
    · have := List.mem_takeWhile_imp h1
      rw [hc] at this
      exact absurd this (by decide)
    · exact h1

/-- C26.  For every line prefix `p`, `shouldSuggestCommands(p)` returns `false` exactly
when `p` without its trailing white space is not empty and ends with `;` or contains `#`
(which it does exactly when `p` contains `#`); it returns `true` for the empty prefix and
for a prefix of white space only. -/
theorem shouldSuggestCommands_false_iff (p : Str) :
    (shouldSuggestCommands p = false ↔
      trimEnd p ≠ [] ∧ ((trimEnd p).getLast? = some ';' ∨ '#' ∈ trimEnd p)) ∧
    ('#' ∈ trimEnd p ↔ '#' ∈ p) ∧
    shouldSuggestCommands [] = true ∧
    ((∀ c ∈ p, isWhiteSpace c = true) → shouldSuggestCommands p = true) := by
  have hmain : shouldSuggestCommands p = false ↔
      trimEnd p ≠ [] ∧ ((trimEnd p).getLast? = some ';' ∨ '#' ∈ trimEnd p) := by
    unfold shouldSuggestCommands
    simp only []
    by_cases h0 : (trimEnd p).length = 0
    · have hnil : trimEnd p = [] := List.length_eq_zero.1 h0
      rw [if_pos h0]
      simp [hnil]
    · have hne : trimEnd p ≠ [] := fun hx => h0 (by rw [hx]; rfl)
      rw [if_neg h0]
      by_cases h1 : endsWith (trimEnd p) ";".toList = true
      · rw [if_pos h1]
        have := (endsWith_singleton (trimEnd p) ';').1 h1
        simp [hne, this]
      · have h1' : ¬ (trimEnd p).getLast? = some ';' := fun hx =>
          h1 ((endsWith_singleton (trimEnd p) ';').2 hx)
        rw [if_neg h1]
        by_cases h2 : includes (trimEnd p) "#".toList = true
        · rw [if_pos h2]
          have := (includes_singleton (trimEnd p) '#').1 h2
          simp [hne, this]
        · have h2' : ¬ '#' ∈ trimEnd p := fun hx =>
            h2 ((includes_singleton (trimEnd p) '#').2 hx)
          rw [if_neg h2]
          simp [h1', h2']
  refine ⟨hmain, mem_trimEnd p '#' (by decide), by decide, fun hws => ?_⟩
  cases hs : shouldSuggestCommands p with
  | true => rfl
  | false => exact absurd (trimEnd_eq_nil p hws) (hmain.1 hs).1

/-- A witness for `shouldSuggestCommands_false_iff`: a prefix of blanks and a tab is
accepted, a statement ended by `;` and a line with a comment are rejected. -/
theorem shouldSuggestCommands_false_iff_witness :
    shouldSuggestCommands "  \t ".toList = true ∧
    shouldSuggestCommands "x = abs(y);  ".toList = false ∧
    shouldSuggestCommands "x = 1 # set".toList = false :=
  ⟨(shouldSuggestCommands_false_iff "  \t ".toList).2.2.2 (by decide),
    (shouldSuggestCommands_false_iff "x = abs(y);  ".toList).1.2
      ⟨by decide, Or.inl (by decide)⟩,
    (shouldSuggestCommands_false_iff "x = 1 # set".toList).1.2
      ⟨by decide, Or.inr (by decide)⟩⟩

/-- The label and the insert text of the item created for a name. -/
theorem createCompletionItem_label (files : Files) (s : CommandLoader) (name : Str) :
    (createCompletionItem files s name).1.label = name ∧
    (createCompletionItem files s name).1.insertText = name ++ "();".toList :=
  ⟨rfl, rfl⟩

/-- The loop over the suggestions adds one item per name, in order, each with that name as
label and the name followed by `();` as insert text. -/
theorem createCompletionItems_labels (files : Files) (names : List Str)
    (start : List CompletionItem × CommandLoader) :
    (createCompletionItems files names start).1.map (fun item => (item.label, item.insertText)) =
      start.1.map (fun item => (item.label, item.insertText)) ++
        names.map (fun name => (name, name ++ "();".toList)) := by
  induction names generalizing start with
  | nil => simp [createCompletionItems]
  | cons name rest ih =>
    have hstep : createCompletionItems files (name :: rest) start =
        createCompletionItems files rest
          (start.1 ++ [(createCompletionItem files start.2 name).1],
            (createCompletionItem files start.2 name).2) := rfl
    rw [hstep, ih]
    simp [createCompletionItem_label]

/-- C27.  For every list of command names, line prefix and current word `w`, whatever the
loader and the files are: if `shouldSuggestCommands` rejects the prefix,
`provideCompletionItems` returns the empty list; otherwise it returns one item per command
name whose lower-case form starts with the lower-case form of `w`, in the order of the
list, each with the name as label and the name followed by `();` as insert text; so when
the lower-case form of `w` is empty (as for the empty word) there is one item per command
name. -/
theorem provideCompletionItems_items (toLower : Str → Str) (files : Files)
    (s : CommandLoader) (commandNames : List Str) (linePrefix w : Str) :
    (shouldSuggestCommands linePrefix = false →
      (provideCompletionItems toLower files s commandNames linePrefix w).1 = []) ∧
    (shouldSuggestCommands linePrefix = true →
      (provideCompletionItems toLower files s commandNames linePrefix w).1.map
          (fun item => (item.label, item.insertText)) =
        (commandNames.filter (fun name => startsWith (toLower name) (toLower w))).map
          (fun name => (name, name ++ "();".toList))) ∧
    (shouldSuggestCommands linePrefix = true → toLower w = [] →
      (provideCompletionItems toLower files s commandNames linePrefix w).1.map
          (fun item => (item.label, item.insertText)) =
        commandNames.map (fun name => (name, name ++ "();".toList))) := by
  have hyes : shouldSuggestCommands linePrefix = true →
      (provideCompletionItems toLower files s commandNames linePrefix w).1.map
          (fun item => (item.label, item.insertText)) =
        (commandNames.filter (fun name => startsWith (toLower name) (toLower w))).map
          (fun name => (name, name ++ "();".toList)) := by
    intro h
    unfold provideCompletionItems
    rw [h]
    simp only [Bool.not_true, Bool.false_eq_true, if_false]
    rw [createCompletionItems_labels]
    rfl
  refine ⟨?_, hyes, ?_⟩
  · intro h
    unfold provideCompletionItems
    rw [h]
    rfl
  · intro h hw
    rw [hyes h, hw]
    have hall : commandNames.filter (fun name => startsWith (toLower name) []) =
        commandNames := by
      rw [List.filter_eq_self]
      intro name _
      simp [startsWith]
    rw [hall]

/-- A witness for `provideCompletionItems_items`: with the names `abs`, `acos`, `Box`, the
word `A` after `x = ` gives the items of `abs` and `acos`, the empty word gives all three,
and nothing is given after a `;`. -/
theorem provideCompletionItems_items_witness :
    (provideCompletionItems toLowerCase repeatedNameFiles CommandLoader.new
        sampleCommandNames "x = A".toList "A".toList).1.map
        (fun item => (item.label, item.insertText)) =
      [("abs".toList, "abs();".toList), ("acos".toList, "acos();".toList)] ∧
    (provideCompletionItems toLowerCase repeatedNameFiles CommandLoader.new
        sampleCommandNames [] []).1.map (fun item => item.label) =
      ["abs".toList, "acos".toList, "Box".toList] ∧
    (provideCompletionItems toLowerCase repeatedNameFiles CommandLoader.new
        sampleCommandNames "x = 1;".toList []).1 = [] := by
  have h1 := (provideCompletionItems_items toLowerCase repeatedNameFiles CommandLoader.new
    sampleCommandNames "x = A".toList "A".toList).2.1 (by decide)
  have h2 := (provideCompletionItems_items toLowerCase repeatedNameFiles CommandLoader.new
    sampleCommandNames [] []).2.2 (by decide) (by decide)
  have h3 := (provideCompletionItems_items toLowerCase repeatedNameFiles CommandLoader.new
    sampleCommandNames "x = 1;".toList []).1 (by decide)
  refine ⟨h1.trans (by decide), ?_, h3⟩
  have h2' := congrArg (List.map Prod.fst) h2
  simp only [List.map_map] at h2'
  exact h2'.trans (by decide)

/-! ## The hover provider: the basic format -/

/-- The value after a conditional `appendMarkdown`. -/
theorem value_appendMarkdown_if (c : Prop) [Decidable c] (md : MarkdownString) (text : Str) :
    (if c then md.appendMarkdown text else md).value =
      md.value ++ (if c then text else []) := by
  split_ifs <;> simp [MarkdownString.appendMarkdown]

/-- The value after the loop over the syntax rows. -/
theorem value_foldl_rows (rows : List SyntaxRow) (md : MarkdownString) :
    (rows.foldl (fun (md : MarkdownString) (syntaxItem : SyntaxRow) =>
      md.appendMarkdown ("| `".toList ++ syntaxItem.syntaxText ++ "` | ".toList ++
        syntaxItem.description ++ " |\n".toList)) md).value =
      md.value ++ (rows.map syntaxTableLine).flatten := by
  induction rows generalizing md with
  | nil => simp
  | cons r rest ih =>
    rw [List.foldl_cons, ih]
    simp [MarkdownString.appendMarkdown, syntaxTableLine]

/-- The test `if (s)` is true exactly for a string that is there and not empty. -/
theorem isTruthy_iff (s : Option Str) : isTruthy s = true ↔ s.getD [] ≠ [] := by
  cases s with
  | none => simp [isTruthy]
  | some t => simp [isTruthy]

/-- The value after `appendMarkdown`. -/
theorem value_appendMarkdown (md : MarkdownString) (text : Str) :
    (md.appendMarkdown text).value = md.value ++ text := rfl

/-- The value of `new MarkdownString()`. -/
theorem value_new_none : (MarkdownString.new none).value = [] := rfl

/-- The value after the conditional block of the syntax table. -/
theorem value_syntax_block (md : MarkdownString) (rows : List SyntaxRow) (a b c d : Str) :
    (if rows.length > 0 then
        ((rows.foldl (fun (md : MarkdownString) (syntaxItem : SyntaxRow) =>
          md.appendMarkdown ("| `".toList ++ syntaxItem.syntaxText ++ "` | ".toList ++
            syntaxItem.description ++ " |\n".toList))
          (((md.appendMarkdown a).appendMarkdown b).appendMarkdown c)).appendMarkdown d)
      else md).value =
      md.value ++ (if rows ≠ [] then
        a ++ (b ++ c) ++ (rows.map syntaxTableLine).flatten ++ d else []) := by
  by_cases h : rows = []
  · subst h
    simp
  · have hpos : rows.length > 0 := List.length_pos.2 h
    rw [if_pos hpos, if_pos h]
    simp only [value_appendMarkdown, value_foldl_rows]
    simp only [List.append_assoc]

/-- The value after the conditional block of the example. -/
theorem value_example_block (md : MarkdownString) (e : Option Str) (header language : Str) :
    (if isTruthy e = true then
        (md.appendMarkdown header).appendCodeblock (e.getD []) language
      else md).value =
      md.value ++ (if e.getD [] ≠ [] then header ++ codeblockText (e.getD []) language
        else []) := by
  by_cases h : isTruthy e = true
  · rw [if_pos h, if_pos ((isTruthy_iff e).1 h)]
    simp only [MarkdownString.appendMarkdown, MarkdownString.appendCodeblock, codeblockText,
      MarkdownString.new, Option.getD_none, List.nil_append, List.append_assoc]
  · rw [if_neg h, if_neg (fun hx => h ((isTruthy_iff e).2 hx))]
    simp

/-- C21.  For every command record with no markdown or an empty one,
`createMarkdownContent` returns, with `isTrusted` true, the concatenation in this order
of: `### `, the name and two newlines; the description and two newlines if the description
is not empty; `**Usage:** `, the usage between backticks and two newlines if the usage is
not empty; `**Category:** `, the category and a newline if the category is there and not
empty; if the syntax list is there and not empty, the block that starts with a newline,
`**Syntax:**` and the header and separator of the table, has one line per syntax row in
order and ends with a newline; and `**Example:**`, two newlines and the example as a
`matlab` code block if the example is there and not empty. -/
theorem createMarkdownContent_basic (command : CommandRecord)
    (hm : command.markdown = none ∨ command.markdown = some []) :
    (createMarkdownContent command).value =
      "### ".toList ++ command.name ++ "\n\n".toList ++
      (if command.description ≠ [] then command.description ++ "\n\n".toList else []) ++
      (if command.usage ≠ [] then
        "**Usage:** `".toList ++ command.usage ++ "`\n\n".toList else []) ++
      (if command.category.getD [] ≠ [] then
        "**Category:** ".toList ++ command.category.getD [] ++ "\n".toList else []) ++
      (if command.syntaxRows.getD [] ≠ [] then
        "\n**Syntax:**\n\n| Syntax | Description |\n|--------|-------------|\n".toList ++
          ((command.syntaxRows.getD []).map syntaxTableLine).flatten ++ "\n".toList
       else []) ++
      (if command.exampleText.getD [] ≠ [] then
        "**Example:**\n\n".toList ++ codeblockText (command.exampleText.getD []) "matlab".toList
       else []) ∧
    codeblockText (command.exampleText.getD []) "matlab".toList =
      "```matlab\n".toList ++ command.exampleText.getD [] ++ "\n```\n".toList ∧
    (createMarkdownContent command).isTrusted = true := by
  have hfalse : isTruthy command.markdown = false := by
    rcases hm with h | h <;> rw [h] <;> rfl
  refine ⟨?_, by simp [codeblockText, MarkdownString.appendCodeblock, MarkdownString.new], ?_⟩
  · unfold createMarkdownContent
    rw [hfalse]
    simp only [Bool.false_eq_true, if_false]
    have hheader :
        "\n**Syntax:**\n\n| Syntax | Description |\n|--------|-------------|\n".toList =
          "\n**Syntax:**\n\n".toList ++
            ("| Syntax | Description |\n".toList ++ "|--------|-------------|\n".toList) := by
      decide
    have hcat : (isTruthy command.category = true) = (command.category.getD [] ≠ []) :=
      propext (isTruthy_iff _)
    rw [hheader]
    cases hrows : command.syntaxRows with
    | none =>
      simp only [value_example_block, value_appendMarkdown_if, hcat, value_appendMarkdown,
        value_new_none, Option.getD_none]
      simp only [List.nil_append, List.append_assoc, ne_eq, not_true_eq_false, if_false,
        List.append_nil]
    | some rows =>
      simp only [value_example_block, value_syntax_block, value_appendMarkdown_if, hcat,
        value_appendMarkdown, value_new_none, Option.getD_some]
      simp only [List.nil_append, List.append_assoc]
  · unfold createMarkdownContent
    rw [hfalse]
    rfl

/-- A witness for `createMarkdownContent_basic`: the command of the test with all parts,
and the command of the test with an empty category, syntax list and example. -/
theorem createMarkdownContent_basic_witness :
    (createMarkdownContent basicTestCommand).value =
      ("### basiccmd\n\nBasic command description\n\n**Usage:** `basiccmd();`\n\n" ++
       "**Category:** general\n\n**Syntax:**\n\n| Syntax | Description |\n" ++
       "|--------|-------------|\n| `basiccmd();` | Runs basic command |\n\n" ++
       "**Example:**\n\n```matlab\nbasiccmd();\n// Output: result\n```\n").toList ∧
    (createMarkdownContent noCategoryTestCommand).value =
      "### nocategory\n\nNo category command\n\n**Usage:** `nocategory();`\n\n".toList :=
  ⟨(createMarkdownContent_basic basicTestCommand (Or.inl rfl)).1.trans (by decide),
    (createMarkdownContent_basic noCategoryTestCommand (Or.inl rfl)).1.trans (by decide)⟩

end Lumerical
